import Mathlib

/-!
# pin_definitions.hpp

A shallow embedding of `src/avr_utilities/pin_definitions.hpp`: the port
registry (`port_traits`, `get_port`), the descriptors (`pin_definition`,
`pin_group`) and the five operations `set`, `reset`, `write`, `read` and
`declare_output`.

Conventions.
* A `uint8_t` is a natural number below 256; every conversion to `uint8_t`
  is an explicit `% 256`.
* Operands of `|`, `&`, `~`, `<<`, `>>` are promoted to `int` before the
  operation.  On AVR `int` has 16 bits, so `~x` for a promoted `uint8_t` has
  the two's-complement bit pattern `0xFFFF - x`.
* A template instantiation that does not build is `none`.
* `pin_group` declares its member `port` as a `uint8_t`, `pin_definition` as a
  `PortPlaceholder`.  The operations pass `pins_type::port` as the
  `PortPlaceholder` template argument of `get_port`, and an integer does not
  convert implicitly to an enumeration: an operation instantiated on a
  `pin_group` (`on_pin_group`) is `none`.
-/

namespace pin_definitions

/-! ## Data model -/

/-- The enumeration `PortPlaceholder`. -/
inductive PortPlaceholder where
  | port_A
  | port_B
  | port_C
  | port_D
  | port_E
  | port_F
  deriving DecidableEq, Repr

/-- The value of each enumerator of `PortPlaceholder` (no initialisers: 0, 1, ...). -/
def PortPlaceholder.value : PortPlaceholder → Nat
  | port_A => 0
  | port_B => 1
  | port_C => 2
  | port_D => 3
  | port_E => 4
  | port_F => 5

/-- The enumerator of `PortPlaceholder` with a given value, if there is one. -/
def PortPlaceholder.of_value : Nat → Option PortPlaceholder
  | 0 => some port_A
  | 1 => some port_B
  | 2 => some port_C
  | 3 => some port_D
  | 4 => some port_E
  | 5 => some port_F
  | _ => none

/-- The tag types `tag_port`, `tag_pin` and `tag_ddr`, which select between the
output port, the input port and the data direction port. -/
inductive Tag where
  | tag_port
  | tag_pin
  | tag_ddr
  deriving DecidableEq, Repr

/-- Modelled from the spec: the registers `PORTx`, `PINx`, `DDRx` that
`<avr/io.h>` names.  The header is not part of the repository; following the
spec, the three registers of a port are three distinct 8-bit locations and
registers of different ports are distinct. -/
inductive Reg where
  | PORT (p : PortPlaceholder)
  | PIN (p : PortPlaceholder)
  | DDR (p : PortPlaceholder)
  deriving DecidableEq, Repr

/-- The contents of the hardware registers, one `uint8_t` per register. -/
abbrev Memory := Reg → Nat

/-- Every register holds an 8-bit value. -/
def Memory.is_uint8 (m : Memory) : Prop := ∀ r, m r < 256

/-- Number of value bits of the pattern of an `int` on AVR. -/
def INT_BITS : Nat := 16

/-- Bit pattern of `~x` for an `x` promoted to `int`. -/
def int_not (x : Nat) : Nat := 2 ^ INT_BITS - 1 - x

/-- Conversion of an `int` result to `uint8_t`. -/
def to_uint8 (x : Nat) : Nat := x % 256

/-- The shape the operations consume: a type with the static constants `port`,
`mask` and `shift`. -/
structure Pins where
  port : PortPlaceholder
  mask : Nat
  shift : Nat
  deriving DecidableEq, Repr

/-- The constants `mask` and `shift` of the descriptor are `uint8_t` values. -/
def Pins.is_uint8 (D : Pins) : Prop := D.mask < 256 ∧ D.shift < 256

instance (D : Pins) : Decidable D.is_uint8 := by
  unfold Pins.is_uint8
  infer_instance

/-- The template `pin_definition< port_, bit_>`: `mask = 1 << bit_` converted
to `uint8_t`, `shift = bit_`.  (The member `bit` is `bit_` itself.)  The shift
is exact in `int` for `bit_ < 15`. -/
def pin_definition (port_ : PortPlaceholder) (bit_ : Nat) : Pins :=
  { port := port_, mask := to_uint8 (1 <<< bit_), shift := bit_ }

/-- The member `bit` of `pin_definition< port_, bit_>`: `bit_` itself. -/
def pin_definition_bit (_port_ : PortPlaceholder) (bit_ : Nat) : Nat := bit_

/-- The metafunction `bit_to_mask< bit_>`: `value = 1 << bit_` converted to
`uint8_t`, and the specialisation `bit_to_mask< 255>` with `value = 0`. -/
def bit_to_mask (bit_ : Nat) : Nat :=
  if bit_ = 255 then 0 else to_uint8 (1 <<< bit_)

/-- The member `port` of `pin_group< port_, first_bit, bits>` as the source
declares it: `static const uint8_t port = port_`, the value of the enumerator
converted to `uint8_t`. -/
def pin_group_port (port_ : PortPlaceholder) : Nat := to_uint8 port_.value

/-- The constants of an instance of `pin_group`: the members `port`, `mask` and
`shift`, each declared `uint8_t`. -/
structure PinGroup where
  port : Nat
  mask : Nat
  shift : Nat
  deriving DecidableEq, Repr

/-- The template `pin_group< port_, first_bit, bits>`: `port = port_` (the member
is a `uint8_t`, see `pin_group_port`), `mask = (0xff >> (8 - bits)) << first_bit`
converted to `uint8_t`, `shift = first_bit`.  For `bits > 8` the shift count
`8 - bits` is negative, the initialiser of `mask` is no constant expression and
the instance does not build.  The shifts are exact in `int` for `first_bit ≤ 7`. -/
def pin_group (port_ : PortPlaceholder) (first_bit bits : Nat) : Option PinGroup :=
  if bits ≤ 8 then
    some { port := pin_group_port port_,
           mask := to_uint8 ((0xff >>> (8 - bits)) <<< first_bit),
           shift := first_bit }
  else
    none

/-- A constant used as the template argument of `get_port< port>`, with the type
it is declared with: `PortPlaceholder` in `pin_definition`, `uint8_t` in
`pin_group`. -/
inductive PortArgument where
  | of_placeholder (port : PortPlaceholder)
  | of_uint8 (port : Nat)

/-- The template argument converted to the parameter type `PortPlaceholder` of
`get_port`: an enumerator is taken as it is; an integer has no implicit
conversion to an enumeration, so a `uint8_t` constant gives no argument. -/
def PortArgument.convert : PortArgument → Option PortPlaceholder
  | of_placeholder port => some port
  | of_uint8 _ => none

/-- The descriptor `pins_type` that the operations instantiate on a `pin_group`:
its `port` is the template argument `pins_type::port` of `get_port`. -/
def PinGroup.pins (G : PinGroup) : Option Pins :=
  (PortArgument.of_uint8 G.port).convert.map
    (fun port => { port := port, mask := G.mask, shift := G.shift })

/-- The descriptor with the mask and shift of a `pin_group` whose member `port`
is declared `PortPlaceholder`, the way `pin_definition` declares it. -/
def PinGroup.with_port (G : PinGroup) (port : PortPlaceholder) : Pins :=
  { port := port, mask := G.mask, shift := G.shift }

/-! ## Port registry -/

/-- The template `port_traits< port>`.  The specialisation produced by
`DECLARE_PORT_TRAITS( p_)` exists when `PORTp_` is defined by the hardware
header (`defined`), and then has the three overloads of `get`; the primary
template has no member `get`. -/
def port_traits (defined : PortPlaceholder → Bool) (port : PortPlaceholder) :
    Option (Tag → Reg) :=
  if defined port then
    some (fun tag =>
      match tag with
      | Tag.tag_port => Reg.PORT port
      | Tag.tag_pin => Reg.PIN port
      | Tag.tag_ddr => Reg.DDR port)
  else
    none

/-- The function `get_port< port>( tag)`: `port_traits<port>::get( tag)`. -/
def get_port (defined : PortPlaceholder → Bool) (port : PortPlaceholder) (tag : Tag) :
    Option Reg :=
  (port_traits defined port).map (fun get => get tag)

/-! ## Operations -/

/-- The function `set`: `get_port<pins_type::port>( tag_port()) |= pins_type::mask`. -/
def set (defined : PortPlaceholder → Bool) (D : Pins) (m : Memory) : Option Memory :=
  (get_port defined D.port Tag.tag_port).map
    (fun r => Function.update m r (to_uint8 (m r ||| D.mask)))

/-- The function `reset`: `get_port<pins_type::port>( tag_port()) &= ~pins_type::mask`. -/
def reset (defined : PortPlaceholder → Bool) (D : Pins) (m : Memory) : Option Memory :=
  (get_port defined D.port Tag.tag_port).map
    (fun r => Function.update m r (to_uint8 (m r &&& int_not D.mask)))

/-- The function `write`:
`shifted = (value << shift) & mask; port = (port & ~mask) | shifted`.
Only the low 8 bits of `value << shift` pass the mask, and for `shift < 16`
they are those of the shift without overflow. -/
def write (defined : PortPlaceholder → Bool) (D : Pins) (value : Nat) (m : Memory) :
    Option Memory :=
  let shifted := to_uint8 ((value <<< D.shift) &&& D.mask)
  (get_port defined D.port Tag.tag_port).map
    (fun port => Function.update m port (to_uint8 ((m port &&& int_not D.mask) ||| shifted)))

/-- The function `read`: `(get_port<pins_type::port>( tag_pin()) & mask) >> shift`,
returned as a `uint8_t` (the shift count is within `int` for `shift < 16`). -/
def read (defined : PortPlaceholder → Bool) (D : Pins) (m : Memory) : Option Nat :=
  (get_port defined D.port Tag.tag_pin).map
    (fun r => to_uint8 ((m r &&& D.mask) >>> D.shift))

/-- The function `declare_output`: `get_port<pins_type::port>( tag_ddr()) |= pins_type::mask`. -/
def declare_output (defined : PortPlaceholder → Bool) (D : Pins) (m : Memory) :
    Option Memory :=
  (get_port defined D.port Tag.tag_ddr).map
    (fun r => Function.update m r (to_uint8 (m r ||| D.mask)))

/-- An operation `f` instantiated on the type `pin_group< port_, first_bit, bits>`. -/
def on_pin_group {α : Type} (port_ : PortPlaceholder) (first_bit bits : Nat)
    (f : Pins → Option α) : Option α :=
  ((pin_group port_ first_bit bits).bind PinGroup.pins).bind f

/-! ## Vocabulary of the properties -/

/-- Number of ones among the eight bits of a `uint8_t`. -/
def popcount (x : Nat) : Nat :=
  ((List.range 8).filter (fun i => x.testBit i)).length

/-- The mask `mask` selects exactly the `bits` positions `shift .. shift+bits-1`. -/
def is_field (mask shift bits : Nat) : Prop :=
  ∀ j, mask.testBit j = decide (shift ≤ j ∧ j < shift + bits)

/-- The field of the register value `x` selected by `D`, aligned to bit 0. -/
def field (D : Pins) (x : Nat) : Nat := (x &&& D.mask) >>> D.shift

/-- The calls of the interface that assign to a register. -/
inductive Op where
  | op_set (D : Pins)
  | op_reset (D : Pins)
  | op_write (D : Pins) (value : Nat)
  | op_declare_output (D : Pins)

/-- The descriptor a call is made on. -/
def Op.pins : Op → Pins
  | op_set D => D
  | op_reset D => D
  | op_write D _ => D
  | op_declare_output D => D

/-- The effect of a call on the registers. -/
def Op.run (defined : PortPlaceholder → Bool) : Op → Memory → Option Memory
  | op_set D, m => set defined D m
  | op_reset D, m => reset defined D m
  | op_write D value, m => write defined D value m
  | op_declare_output D, m => declare_output defined D m

/-- The register a call assigns to: the output register of the port for `set`,
`reset` and `write`, the direction register for `declare_output`. -/
def Op.target : Op → Reg
  | op_set D => Reg.PORT D.port
  | op_reset D => Reg.PORT D.port
  | op_write D _ => Reg.PORT D.port
  | op_declare_output D => Reg.DDR D.port

/-- The bits a call drives into the positions of its mask: all ones for `set`
and `declare_output`, all zeros for `reset`, the shifted value for `write`. -/
def Op.driven : Op → Nat
  | op_set _ => 255
  | op_reset _ => 0
  | op_write D value => value <<< D.shift
  | op_declare_output _ => 255

/-- The call `read` as a step on the registers: the value returned and the
registers it leaves, which are the ones it started from (the body only loads). -/
def read_state (defined : PortPlaceholder → Bool) (D : Pins) (m : Memory) :
    Option (Nat × Memory) :=
  (read defined D m).map (fun v => (v, m))

/-- Bit `i` of `y` is bit `i` of `c` where the mask `k` has a one and bit `i`
of `x` elsewhere, within the 8 bits of a register. -/
def selects (y x k c : Nat) : Prop :=
  ∀ i, y.testBit i
    = (decide (i < 8) && ((k.testBit i && c.testBit i) || (!k.testBit i && x.testBit i)))

/-! ## Bit-level facts about the promoted arithmetic -/

theorem to_uint8_of_lt {x : Nat} (h : x < 256) : to_uint8 x = x :=
  Nat.mod_eq_of_lt h

theorem to_uint8_lt (x : Nat) : to_uint8 x < 256 :=
  Nat.mod_lt x (by decide)

theorem testBit_to_uint8 (x i : Nat) :
    (to_uint8 x).testBit i = (decide (i < 8) && x.testBit i) := by
  have h : to_uint8 x = x % 2 ^ 8 := rfl
  rw [h, Nat.testBit_mod_two_pow]

theorem testBit_eq_false_of_uint8 {x i : Nat} (hx : x < 256) (hi : 8 ≤ i) :
    x.testBit i = false := by
  apply Nat.testBit_lt_two_pow
  calc x < 2 ^ 8 := hx
    _ ≤ 2 ^ i := Nat.pow_le_pow_right (by decide) hi

theorem testBit_int_not {x : Nat} (hx : x < 256) (i : Nat) :
    (int_not x).testBit i = (decide (i < 16) && !x.testBit i) := by
  have h : int_not x = 2 ^ 16 - (x + 1) := by
    unfold int_not INT_BITS
    omega
  rw [h]
  exact Nat.testBit_two_pow_sub_succ (by omega) i

theorem testBit_not8 {x : Nat} (hx : x < 256) (i : Nat) :
    (255 - x).testBit i = (decide (i < 8) && !x.testBit i) := by
  have h : 255 - x = 2 ^ 8 - (x + 1) := by omega
  rw [h]
  exact Nat.testBit_two_pow_sub_succ (by omega) i

/-- On a `uint8_t` operand, `& ~mask` in `int` is `AND NOT mask` on 8 bits. -/
theorem and_int_not {x mask : Nat} (hx : x < 256) (hmask : mask < 256) :
    x &&& int_not mask = x &&& (255 - mask) := by
  apply Nat.eq_of_testBit_eq
  intro i
  rw [Nat.testBit_and, Nat.testBit_and, testBit_int_not hmask, testBit_not8 hmask]
  by_cases hi : i < 8
  · have h16 : i < 16 := by omega
    simp [hi, h16]
  · rw [testBit_eq_false_of_uint8 hx (by omega)]
    simp

theorem get_port_of_defined {defined : PortPlaceholder → Bool} {port : PortPlaceholder}
    (h : defined port = true) :
    get_port defined port Tag.tag_port = some (Reg.PORT port)
    ∧ get_port defined port Tag.tag_pin = some (Reg.PIN port)
    ∧ get_port defined port Tag.tag_ddr = some (Reg.DDR port) := by
  simp [get_port, port_traits, h]

/-- The new contents of the output register after `write`, as an 8-bit formula. -/
theorem write_value {old mask : Nat} (shifted : Nat) (hold : old < 256) (hmask : mask < 256) :
    to_uint8 ((old &&& int_not mask) ||| to_uint8 (shifted &&& mask))
      = ((old &&& (255 - mask)) ||| (shifted &&& mask)) % 256 := by
  have h1 : shifted &&& mask < 256 := Nat.lt_of_le_of_lt Nat.and_le_right hmask
  rw [and_int_not hold hmask, to_uint8_of_lt h1]
  rfl

theorem or_value {old mask : Nat} (hold : old < 256) (hmask : mask < 256) :
    to_uint8 (old ||| mask) = old ||| mask :=
  to_uint8_of_lt (Nat.or_lt_two_pow (n := 8) hold hmask)

theorem and_not_value {old mask : Nat} (hold : old < 256) (hmask : mask < 256) :
    to_uint8 (old &&& int_not mask) = old &&& (255 - mask) := by
  rw [and_int_not hold hmask]
  exact to_uint8_of_lt (Nat.lt_of_le_of_lt Nat.and_le_left hold)

theorem pin_definition_mask (port_ : PortPlaceholder) {bit_ : Nat} (h : bit_ < 8) :
    (pin_definition port_ bit_).mask = 2 ^ bit_ := by
  show to_uint8 (1 <<< bit_) = 2 ^ bit_
  interval_cases bit_ <;> rfl

theorem pin_group_eq (port_ : PortPlaceholder) (first_bit : Nat) {bits : Nat} (h : bits ≤ 8) :
    pin_group port_ first_bit bits
      = some { port := pin_group_port port_,
               mask := to_uint8 ((0xff >>> (8 - bits)) <<< first_bit),
               shift := first_bit } := by
  unfold pin_group
  rw [if_pos h]

theorem pin_group_2_3 (port_ : PortPlaceholder) :
    pin_group port_ 2 3 = some { port := pin_group_port port_, mask := 28, shift := 2 } := rfl

/-- No operation instantiated on a `pin_group` builds. -/
theorem on_pin_group_none {α : Type} (port_ : PortPlaceholder) (first_bit bits : Nat)
    (f : Pins → Option α) : on_pin_group port_ first_bit bits f = none := by
  unfold on_pin_group
  cases pin_group port_ first_bit bits with
  | none => rfl
  | some G => rfl

theorem set_eq {defined : PortPlaceholder → Bool} {D : Pins} (h : defined D.port = true)
    (m : Memory) :
    set defined D m
      = some (Function.update m (Reg.PORT D.port) (to_uint8 (m (Reg.PORT D.port) ||| D.mask))) := by
  simp [set, (get_port_of_defined h).1]

theorem reset_eq {defined : PortPlaceholder → Bool} {D : Pins} (h : defined D.port = true)
    (m : Memory) :
    reset defined D m
      = some (Function.update m (Reg.PORT D.port)
          (to_uint8 (m (Reg.PORT D.port) &&& int_not D.mask))) := by
  simp [reset, (get_port_of_defined h).1]

theorem write_eq {defined : PortPlaceholder → Bool} {D : Pins} (h : defined D.port = true)
    (v : Nat) (m : Memory) :
    write defined D v m
      = some (Function.update m (Reg.PORT D.port)
          (to_uint8 ((m (Reg.PORT D.port) &&& int_not D.mask)
            ||| to_uint8 ((v <<< D.shift) &&& D.mask)))) := by
  simp [write, (get_port_of_defined h).1]

theorem read_eq {defined : PortPlaceholder → Bool} {D : Pins} (h : defined D.port = true)
    (m : Memory) :
    read defined D m = some (to_uint8 ((m (Reg.PIN D.port) &&& D.mask) >>> D.shift)) := by
  simp [read, (get_port_of_defined h).2.1]

theorem declare_output_eq {defined : PortPlaceholder → Bool} {D : Pins}
    (h : defined D.port = true) (m : Memory) :
    declare_output defined D m
      = some (Function.update m (Reg.DDR D.port) (to_uint8 (m (Reg.DDR D.port) ||| D.mask))) := by
  simp [declare_output, (get_port_of_defined h).2.2]

/-- OR with a single-bit mask sets that bit and keeps the others. -/
theorem or_two_pow_testBit (old b i : Nat) :
    (old ||| 2 ^ b).testBit i = (old.testBit i || decide (b = i)) := by
  rw [Nat.testBit_or, Nat.testBit_two_pow]

/-- The field selected by `pin_group< P, 2, 3>` when bits 2-4 are `101`. -/
theorem field_2_3_eq_five {x : Nat} (h2 : x.testBit 2 = true) (h3 : x.testBit 3 = false)
    (h4 : x.testBit 4 = true) : to_uint8 ((x &&& 28) >>> 2) = 5 := by
  apply Nat.eq_of_testBit_eq
  intro i
  rw [testBit_to_uint8, Nat.testBit_shiftRight, Nat.testBit_and]
  by_cases hi : i < 3
  · interval_cases i
    · have : (28 : Nat).testBit (2 + 0) = true := by decide
      have h5 : (5 : Nat).testBit 0 = true := by decide
      simp [h2, this, h5]
    · have h5 : (5 : Nat).testBit 1 = false := by decide
      simp [h3, h5]
    · have : (28 : Nat).testBit (2 + 2) = true := by decide
      have h5 : (5 : Nat).testBit 2 = true := by decide
      simp [h4, this, h5]
  · have h28 : (28 : Nat).testBit (2 + i) = false :=
      Nat.testBit_lt_two_pow (Nat.lt_of_lt_of_le (by decide : 28 < 2 ^ 5)
        (Nat.pow_le_pow_right (by decide) (by omega)))
    have h5 : (5 : Nat).testBit i = false :=
      Nat.testBit_lt_two_pow (Nat.lt_of_lt_of_le (by decide : 5 < 2 ^ 3)
        (Nat.pow_le_pow_right (by decide) (by omega)))
    simp [h28, h5]

theorem shiftRight_and_lt {x mask : Nat} (shift : Nat) (hmask : mask < 256) :
    (x &&& mask) >>> shift < 256 := by
  rw [Nat.shiftRight_eq_div_pow]
  exact Nat.lt_of_le_of_lt (Nat.div_le_self _ _) (Nat.lt_of_le_of_lt Nat.and_le_right hmask)

theorem pin_group_mask_is_field {first_bit bits : Nat} (h : first_bit + bits ≤ 8) :
    is_field (to_uint8 ((0xff >>> (8 - bits)) <<< first_bit)) first_bit bits := by
  intro j
  have h255 : (0xff : Nat) = 2 ^ 8 - 1 := rfl
  rw [testBit_to_uint8, Nat.testBit_shiftLeft, Nat.testBit_shiftRight, h255,
    Nat.testBit_two_pow_sub_one]
  by_cases h1 : first_bit ≤ j
  · by_cases h2 : j < first_bit + bits
    · have h3 : j < 8 := by omega
      have h4 : 8 - bits + (j - first_bit) < 8 := by omega
      simp [h1, h2, h3, h4]
    · have h4 : ¬ (8 - bits + (j - first_bit) < 8) := by omega
      simp [h1, h2, h4]
  · simp [h1]

/-- A `pin_group` within the register: it builds, and with a `PortPlaceholder`
port its constants are those of a field of `bits` bits at `first_bit`. -/
theorem pin_group_with_port (port_ : PortPlaceholder) {first_bit bits : Nat}
    (h : first_bit + bits ≤ 8) :
    ∃ G, pin_group port_ first_bit bits = some G
      ∧ (G.with_port port_).port = port_
      ∧ (G.with_port port_).shift = first_bit
      ∧ is_field (G.with_port port_).mask (G.with_port port_).shift bits :=
  ⟨_, pin_group_eq port_ first_bit (by omega), rfl, rfl, pin_group_mask_is_field h⟩

theorem pin_definition_is_field (port_ : PortPlaceholder) {bit_ : Nat} (h : bit_ < 8) :
    is_field (pin_definition port_ bit_).mask (pin_definition port_ bit_).shift 1 := by
  intro j
  rw [pin_definition_mask _ h, Nat.testBit_two_pow]
  show decide (bit_ = j) = decide (bit_ ≤ j ∧ j < bit_ + 1)
  by_cases h1 : bit_ = j
  · simp [h1]
  · have h2 : ¬ (bit_ ≤ j ∧ j < bit_ + 1) := by omega
    simp [h1, h2]

theorem is_field_lt {mask shift bits : Nat} (hf : is_field mask shift bits)
    (h8 : shift + bits ≤ 8) : mask < 256 := by
  apply Nat.lt_pow_two_of_testBit (n := 8)
  intro i hi
  rw [hf i]
  have : ¬ (shift ≤ i ∧ i < shift + bits) := by omega
  simp [this]

/-- The value that `write` stores, seen through the mask: the field holds the low
`bits` bits of the value. -/
theorem field_after_write {mask shift bits : Nat} (hf : is_field mask shift bits)
    (h8 : shift + bits ≤ 8) (old v : Nat) :
    ((((old &&& (255 - mask)) ||| ((v <<< shift) &&& mask)) % 256) &&& mask) >>> shift
      = v % 2 ^ bits := by
  have hmask : mask < 256 := is_field_lt hf h8
  have h256 : ∀ x, x % 256 = to_uint8 x := fun _ => rfl
  apply Nat.eq_of_testBit_eq
  intro j
  rw [Nat.testBit_shiftRight, Nat.testBit_and, h256, testBit_to_uint8, Nat.testBit_or,
    Nat.testBit_and, Nat.testBit_and, Nat.testBit_shiftLeft, testBit_not8 hmask,
    Nat.testBit_mod_two_pow, hf (shift + j)]
  by_cases hj : j < bits
  · have h1 : shift ≤ shift + j ∧ shift + j < shift + bits := ⟨by omega, by omega⟩
    have h2 : shift + j < 8 := by omega
    have h3 : shift + j ≥ shift := by omega
    have h4 : shift + j - shift = j := by omega
    simp [hj, h1, h2, h4]
  · have h1 : ¬ (shift ≤ shift + j ∧ shift + j < shift + bits) := by omega
    simp [hj, h1]

/-- Only the low `bits` bits of the value reach the register. -/
theorem shifted_truncates {mask shift bits : Nat} (hf : is_field mask shift bits) (v : Nat) :
    ((v % 2 ^ bits) <<< shift) &&& mask = (v <<< shift) &&& mask := by
  apply Nat.eq_of_testBit_eq
  intro j
  rw [Nat.testBit_and, Nat.testBit_and, Nat.testBit_shiftLeft, Nat.testBit_shiftLeft,
    Nat.testBit_mod_two_pow, hf j]
  by_cases h1 : shift ≤ j ∧ j < shift + bits
  · have h2 : j - shift < bits := by omega
    simp [h1, h2]
  · simp [h1]

/-- A bit outside the mask keeps its value under the assignment of `write`. -/
theorem write_frame_bits {old mask : Nat} (shifted : Nat) (hold : old < 256)
    (hmask : mask < 256) {i : Nat} (hi : mask.testBit i = false) :
    (((old &&& (255 - mask)) ||| (shifted &&& mask)) % 256).testBit i = old.testBit i := by
  have h256 : ∀ x, x % 256 = to_uint8 x := fun _ => rfl
  rw [h256, testBit_to_uint8, Nat.testBit_or, Nat.testBit_and, Nat.testBit_and,
    testBit_not8 hmask, hi]
  by_cases h : i < 8
  · simp [h]
  · simp [h, testBit_eq_false_of_uint8 hold (Nat.le_of_not_lt h)]

/-- The state after `write`: the output register holds the 8-bit formula and the
input register is the one before. -/
theorem write_core {defined : PortPlaceholder → Bool} {D : Pins} (hreg : defined D.port = true)
    {m : Memory} (hm : m.is_uint8) (hmask : D.mask < 256) (v : Nat) :
    ∃ m', write defined D v m = some m'
      ∧ m' (Reg.PORT D.port)
          = ((m (Reg.PORT D.port) &&& (255 - D.mask)) ||| ((v <<< D.shift) &&& D.mask)) % 256
      ∧ m' (Reg.PIN D.port) = m (Reg.PIN D.port) := by
  refine ⟨_, write_eq hreg v m, ?_, ?_⟩
  · rw [Function.update_same, write_value _ (hm _) hmask]
  · exact Function.update_noteq (by simp) _ _

/-- Writing to a descriptor whose mask is a field of `bits` bits at `shift`: the
field of the output register becomes `v mod 2^bits`, the bits outside the mask
and the input register keep their value, and `read` sees the written value
once the input register shows the output register on the bits of the mask. -/
theorem write_field_core {defined : PortPlaceholder → Bool} {D : Pins} {bits : Nat}
    (hreg : defined D.port = true) (hf : is_field D.mask D.shift bits)
    (h8 : D.shift + bits ≤ 8) {m : Memory} (hm : m.is_uint8) (v : Nat) :
    ∃ m', write defined D v m = some m'
      ∧ field D (m' (Reg.PORT D.port)) = v % 2 ^ bits
      ∧ (∀ i, D.mask.testBit i = false →
          (m' (Reg.PORT D.port)).testBit i = (m (Reg.PORT D.port)).testBit i)
      ∧ read defined D m' = read defined D m
      ∧ ((∀ i, D.mask.testBit i = true →
            (m' (Reg.PIN D.port)).testBit i = (m' (Reg.PORT D.port)).testBit i) →
          read defined D m' = some (v % 2 ^ bits)) := by
  have hmask : D.mask < 256 := is_field_lt hf h8
  obtain ⟨m', h1, h2, h3⟩ := write_core hreg hm hmask v
  have hfield : field D (m' (Reg.PORT D.port)) = v % 2 ^ bits := by
    unfold field
    rw [h2]
    exact field_after_write hf h8 _ _
  refine ⟨m', h1, hfield, ?_, ?_, ?_⟩
  · intro i hi
    rw [h2]
    exact write_frame_bits _ (hm _) hmask hi
  · rw [read_eq hreg, read_eq hreg, h3]
  · intro hpin
    have hand : m' (Reg.PIN D.port) &&& D.mask = m' (Reg.PORT D.port) &&& D.mask := by
      apply Nat.eq_of_testBit_eq
      intro i
      rw [Nat.testBit_and, Nat.testBit_and]
      cases hb : D.mask.testBit i
      · simp
      · rw [hpin i hb]
    have hfield2 : (m' (Reg.PORT D.port) &&& D.mask) >>> D.shift = v % 2 ^ bits := hfield
    rw [read_eq hreg, hand, to_uint8_of_lt (shiftRight_and_lt _ hmask), hfield2]

/-- The output register after `set` then `reset`, and after `reset` then `set`. -/
theorem set_reset_value {old mask : Nat} (hold : old < 256) (hmask : mask < 256) :
    to_uint8 (to_uint8 (old ||| mask) &&& int_not mask) = old &&& (255 - mask)
    ∧ to_uint8 (to_uint8 (old &&& int_not mask) ||| mask) = old ||| mask := by
  have hor : old ||| mask < 256 := Nat.or_lt_two_pow (n := 8) hold hmask
  have hand : old &&& (255 - mask) < 256 := Nat.lt_of_le_of_lt Nat.and_le_left hold
  constructor
  · rw [or_value hold hmask, and_not_value hor hmask]
    apply Nat.eq_of_testBit_eq
    intro i
    rw [Nat.testBit_and, Nat.testBit_and, Nat.testBit_or, testBit_not8 hmask]
    cases old.testBit i <;> cases mask.testBit i <;> simp
  · rw [and_not_value hold hmask, or_value hand hmask]
    apply Nat.eq_of_testBit_eq
    intro i
    rw [Nat.testBit_or, Nat.testBit_or, Nat.testBit_and, testBit_not8 hmask]
    by_cases h : i < 8
    · cases old.testBit i <;> cases mask.testBit i <;> simp [h]
    · simp [h, testBit_eq_false_of_uint8 hold (Nat.le_of_not_lt h)]

theorem set_then_reset_eq {defined : PortPlaceholder → Bool} {D : Pins}
    (h : defined D.port = true) (m : Memory) :
    (set defined D m).bind (reset defined D)
      = some (Function.update m (Reg.PORT D.port)
          (to_uint8 (to_uint8 (m (Reg.PORT D.port) ||| D.mask) &&& int_not D.mask))) := by
  rw [set_eq h, Option.some_bind, reset_eq h, Function.update_same, Function.update_idem]

theorem reset_then_set_eq {defined : PortPlaceholder → Bool} {D : Pins}
    (h : defined D.port = true) (m : Memory) :
    (reset defined D m).bind (set defined D)
      = some (Function.update m (Reg.PORT D.port)
          (to_uint8 (to_uint8 (m (Reg.PORT D.port) &&& int_not D.mask) ||| D.mask))) := by
  rw [reset_eq h, Option.some_bind, set_eq h, Function.update_same, Function.update_idem]

/-! ## The operations on the registers -/

/-- C1. For a descriptor of a registered port, `write(D, v)` leaves the output
register of the port equal to `(old AND NOT mask) OR ((v << shift) AND mask)`
modulo `2^8`, so every bit outside `mask` keeps its value.  `write` on
`pin_group< P, 2, 3>` itself does not build, its member `port` being a
`uint8_t`; on the descriptor with its mask and shift and a `PortPlaceholder`
port, `v = 5` makes bits 2-4 `101` and leaves the other bits unchanged. -/
theorem write_effect (defined : PortPlaceholder → Bool) (D : Pins) (m : Memory) (v : Nat)
    (hreg : defined D.port = true) (hD : D.is_uint8) (hm : m.is_uint8) :
    (∃ m', write defined D v m = some m'
      ∧ m' (Reg.PORT D.port)
          = ((m (Reg.PORT D.port) &&& (255 - D.mask)) ||| ((v <<< D.shift) &&& D.mask)) % 256
      ∧ ∀ i, D.mask.testBit i = false →
          (m' (Reg.PORT D.port)).testBit i = (m (Reg.PORT D.port)).testBit i)
    ∧ on_pin_group D.port 2 3 (fun E => write defined E 5 m) = none
    ∧ (∃ G m', pin_group D.port 2 3 = some G
      ∧ write defined (G.with_port D.port) 5 m = some m'
      ∧ (m' (Reg.PORT D.port)).testBit 2 = true
      ∧ (m' (Reg.PORT D.port)).testBit 3 = false
      ∧ (m' (Reg.PORT D.port)).testBit 4 = true
      ∧ ∀ i, i < 2 ∨ 5 ≤ i →
          (m' (Reg.PORT D.port)).testBit i = (m (Reg.PORT D.port)).testBit i) := by
  have key : ∀ (E : Pins) (w : Nat), E.port = D.port → E.mask < 256 →
      ∃ m', write defined E w m = some m'
        ∧ m' (Reg.PORT D.port)
            = ((m (Reg.PORT D.port) &&& (255 - E.mask)) ||| ((w <<< E.shift) &&& E.mask)) % 256 := by
    intro E w hE hEm
    refine ⟨Function.update m (Reg.PORT D.port)
      (to_uint8 ((m (Reg.PORT D.port) &&& int_not E.mask)
        ||| to_uint8 ((w <<< E.shift) &&& E.mask))), ?_, ?_⟩
    · simp [write, hE, (get_port_of_defined hreg).1]
    · rw [Function.update_same, write_value _ (hm _) hEm]
  refine ⟨?_, on_pin_group_none _ _ _ _, ?_⟩
  · obtain ⟨m', h1, h2⟩ := key D v rfl hD.1
    refine ⟨m', h1, h2, ?_⟩
    intro i hi
    have hb : ((255 - D.mask).testBit i) = decide (i < 8) := by
      rw [testBit_not8 hD.1, hi]; simp
    rw [h2]
    have h8 : ∀ x, (x % 256).testBit i = (decide (i < 8) && x.testBit i) :=
      fun x => testBit_to_uint8 x i
    rw [h8, Nat.testBit_or, Nat.testBit_and, Nat.testBit_and, hb, hi]
    by_cases h : i < 8
    · simp [h]
    · simp [h, testBit_eq_false_of_uint8 (hm (Reg.PORT D.port)) (Nat.le_of_not_lt h)]
  · obtain ⟨m', h1, h2⟩ := key { port := D.port, mask := 28, shift := 2 } 5 rfl
      (show (28 : Nat) < 256 by decide)
    have h8 : ∀ x i, (x % 256).testBit i = (decide (i < 8) && x.testBit i) := testBit_to_uint8
    have hlit : ∀ i, (227 : Nat).testBit i = (decide (i < 8) && !(28 : Nat).testBit i) :=
      testBit_not8 (x := 28) (by decide)
    have h20 : ∀ i, 5 ≤ i → (20 : Nat).testBit i = false := fun i hi =>
      Nat.testBit_lt_two_pow (Nat.lt_of_lt_of_le (by decide : 20 < 2 ^ 5)
        (Nat.pow_le_pow_right (by decide) hi))
    have h28 : ∀ i, 5 ≤ i → (28 : Nat).testBit i = false := fun i hi =>
      Nat.testBit_lt_two_pow (Nat.lt_of_lt_of_le (by decide : 28 < 2 ^ 5)
        (Nat.pow_le_pow_right (by decide) hi))
    have h3 : m' (Reg.PORT D.port)
        = ((m (Reg.PORT D.port) &&& (255 - 28)) ||| ((5 <<< 2) &&& 28)) % 256 := h2
    rw [show (255 - 28 : Nat) = 227 from rfl, show ((5 : Nat) <<< 2 &&& 28) = 20 from rfl] at h3
    refine ⟨_, m', pin_group_2_3 D.port, h1, ?_, ?_, ?_, ?_⟩
    · rw [h3, h8, Nat.testBit_or]
      have : (20 : Nat).testBit 2 = true := by decide
      simp [this]
    · rw [h3, h8, Nat.testBit_or, Nat.testBit_and]
      have h20 : (20 : Nat).testBit 3 = false := by decide
      have h227 : (227 : Nat).testBit 3 = false := by decide
      simp [h20, h227]
    · rw [h3, h8, Nat.testBit_or]
      have : (20 : Nat).testBit 4 = true := by decide
      simp [this]
    · intro i hi
      rw [h3, h8, Nat.testBit_or, Nat.testBit_and, hlit]
      rcases hi with hi | hi
      · have h20' : (20 : Nat).testBit i = false := by interval_cases i <;> decide
        have h28' : (28 : Nat).testBit i = false := by interval_cases i <;> decide
        have h8' : i < 8 := by omega
        simp [h20', h28', h8']
      · rw [h20 i hi, h28 i hi]
        by_cases h : i < 8
        · simp [h]
        · simp [h, testBit_eq_false_of_uint8 (hm (Reg.PORT D.port)) (Nat.le_of_not_lt h)]

/-- Witness of `write_effect`: on port B with all registers `0xFF`, writing 0 to
`pin_definition< port_B, 3>` leaves `PORTB = 0xF7`, and `write` on
`pin_group< port_B, 2, 3>` does not build. -/
theorem write_effect_witness :
    (pin_definition PortPlaceholder.port_B 3).is_uint8
    ∧ Memory.is_uint8 (fun _ => 255)
    ∧ (∃ m', write (fun _ => true) (pin_definition PortPlaceholder.port_B 3) 0 (fun _ => 255)
          = some m'
        ∧ m' (Reg.PORT PortPlaceholder.port_B) = 247)
    ∧ on_pin_group PortPlaceholder.port_B 2 3
        (fun E => write (fun _ => true) E 5 (fun _ => 255)) = none :=
  have h := write_effect (fun _ => true) (pin_definition PortPlaceholder.port_B 3)
    (fun _ => 255) 0 rfl (by decide) (fun _ => (by decide : (255 : Nat) < 256))
  ⟨by decide, fun _ => (by decide : (255 : Nat) < 256),
    h.1.imp (fun _ h => ⟨h.1, h.2.1⟩), h.2.1⟩

/-- C2. For a descriptor of a registered port, `set(D)` leaves the output
register equal to `old OR mask`: the bits of `mask` are 1 and the others are
unchanged; on `pin_definition< P, b>` with `b` in 0..7 it sets bit `b` and
leaves the other bits unchanged. -/
theorem set_effect (defined : PortPlaceholder → Bool) (D : Pins) (m : Memory)
    (hreg : defined D.port = true) (hD : D.is_uint8) (hm : m.is_uint8) :
    (∃ m', set defined D m = some m'
      ∧ m' (Reg.PORT D.port) = m (Reg.PORT D.port) ||| D.mask
      ∧ (∀ i, D.mask.testBit i = true → (m' (Reg.PORT D.port)).testBit i = true)
      ∧ ∀ i, D.mask.testBit i = false →
          (m' (Reg.PORT D.port)).testBit i = (m (Reg.PORT D.port)).testBit i)
    ∧ ∀ b, b ≤ 7 → ∃ m', set defined (pin_definition D.port b) m = some m'
      ∧ (m' (Reg.PORT D.port)).testBit b = true
      ∧ ∀ i, i ≠ b → (m' (Reg.PORT D.port)).testBit i = (m (Reg.PORT D.port)).testBit i := by
  constructor
  · refine ⟨_, set_eq hreg m, ?_, ?_, ?_⟩
    · rw [Function.update_same, or_value (hm _) hD.1]
    · intro i hi
      rw [Function.update_same, or_value (hm _) hD.1, Nat.testBit_or, hi, Bool.or_true]
    · intro i hi
      rw [Function.update_same, or_value (hm _) hD.1, Nat.testBit_or, hi, Bool.or_false]
  · intro b hb
    have hb8 : b < 8 := by omega
    have hlt : (2 : Nat) ^ b < 256 := Nat.pow_lt_pow_right (by decide) hb8
    have hP : defined (pin_definition D.port b).port = true := hreg
    refine ⟨_, set_eq hP m, ?_, ?_⟩
    · show (Function.update m (Reg.PORT D.port) _ (Reg.PORT D.port)).testBit b = true
      rw [Function.update_same, pin_definition_mask _ hb8, or_value (hm _) hlt,
        or_two_pow_testBit]
      simp
    · intro i hi
      show (Function.update m (Reg.PORT D.port) _ (Reg.PORT D.port)).testBit i = _
      rw [Function.update_same, pin_definition_mask _ hb8, or_value (hm _) hlt,
        or_two_pow_testBit]
      have hport : (pin_definition D.port b).port = D.port := rfl
      simp [Ne.symm hi, hport]

/-- Witness of `set_effect`: on port B with all registers 0, `set` on
`pin_definition< port_B, 3>` leaves `PORTB = 8`. -/
theorem set_effect_witness :
    (pin_definition PortPlaceholder.port_B 3).is_uint8
    ∧ Memory.is_uint8 (fun _ => 0)
    ∧ ∃ m', set (fun _ => true) (pin_definition PortPlaceholder.port_B 3) (fun _ => 0) = some m'
        ∧ m' (Reg.PORT PortPlaceholder.port_B) = 8 :=
  ⟨by decide, fun _ => (by decide : (0 : Nat) < 256),
    (set_effect (fun _ => true) (pin_definition PortPlaceholder.port_B 3) (fun _ => 0) rfl
      (by decide) (fun _ => (by decide : (0 : Nat) < 256))).1.imp (fun _ h => ⟨h.1, h.2.1⟩)⟩

/-- C3. For a descriptor of a registered port, `reset(D)` leaves the output
register equal to `old AND (NOT mask)` on 8 bits: the bits of `mask` are 0 and
the others are unchanged. -/
theorem reset_effect (defined : PortPlaceholder → Bool) (D : Pins) (m : Memory)
    (hreg : defined D.port = true) (hD : D.is_uint8) (hm : m.is_uint8) :
    ∃ m', reset defined D m = some m'
      ∧ m' (Reg.PORT D.port) = m (Reg.PORT D.port) &&& (255 - D.mask)
      ∧ (∀ i, D.mask.testBit i = true → (m' (Reg.PORT D.port)).testBit i = false)
      ∧ ∀ i, D.mask.testBit i = false →
          (m' (Reg.PORT D.port)).testBit i = (m (Reg.PORT D.port)).testBit i := by
  refine ⟨_, reset_eq hreg m, ?_, ?_, ?_⟩
  · rw [Function.update_same, and_not_value (hm _) hD.1]
  · intro i hi
    rw [Function.update_same, and_not_value (hm _) hD.1, Nat.testBit_and, testBit_not8 hD.1, hi]
    simp
  · intro i hi
    rw [Function.update_same, and_not_value (hm _) hD.1, Nat.testBit_and, testBit_not8 hD.1, hi]
    by_cases h : i < 8
    · simp [h]
    · simp [h, testBit_eq_false_of_uint8 (hm (Reg.PORT D.port)) (Nat.le_of_not_lt h)]

/-- Witness of `reset_effect`: on port B with all registers `0xFF`, `reset` on
`pin_definition< port_B, 3>` leaves `PORTB = 0xF7`. -/
theorem reset_effect_witness :
    (pin_definition PortPlaceholder.port_B 3).is_uint8
    ∧ Memory.is_uint8 (fun _ => 255)
    ∧ ∃ m', reset (fun _ => true) (pin_definition PortPlaceholder.port_B 3) (fun _ => 255)
          = some m'
        ∧ m' (Reg.PORT PortPlaceholder.port_B) = 247 :=
  ⟨by decide, fun _ => (by decide : (255 : Nat) < 256),
    (reset_effect (fun _ => true) (pin_definition PortPlaceholder.port_B 3) (fun _ => 255) rfl
      (by decide) (fun _ => (by decide : (255 : Nat) < 256))).imp (fun _ h => ⟨h.1, h.2.1⟩)⟩

/-- C4. For a descriptor of a registered port, `read(D)` returns
`(input register AND mask) >> shift`; two states whose input registers agree
on the bits of `mask` give the same result.  `read` on `pin_group< P, 2, 3>`
itself does not build, its member `port` being a `uint8_t`; on the descriptor
with its mask and shift and a `PortPlaceholder` port the result is 5 whenever
bits 2-4 of the input register are `101`. -/
theorem read_effect (defined : PortPlaceholder → Bool) (D : Pins) (m : Memory)
    (hreg : defined D.port = true) (hD : D.is_uint8) :
    read defined D m = some ((m (Reg.PIN D.port) &&& D.mask) >>> D.shift)
    ∧ (∀ m2 : Memory,
        (∀ i, D.mask.testBit i = true →
          (m2 (Reg.PIN D.port)).testBit i = (m (Reg.PIN D.port)).testBit i) →
        read defined D m2 = read defined D m)
    ∧ on_pin_group D.port 2 3 (fun E => read defined E m) = none
    ∧ ((m (Reg.PIN D.port)).testBit 2 = true → (m (Reg.PIN D.port)).testBit 3 = false →
        (m (Reg.PIN D.port)).testBit 4 = true →
        ∃ G, pin_group D.port 2 3 = some G
          ∧ read defined (G.with_port D.port) m = some 5) := by
  refine ⟨?_, ?_, on_pin_group_none _ _ _ _, ?_⟩
  · rw [read_eq hreg, to_uint8_of_lt (shiftRight_and_lt _ hD.1)]
  · intro m2 h
    have hand : m2 (Reg.PIN D.port) &&& D.mask = m (Reg.PIN D.port) &&& D.mask := by
      apply Nat.eq_of_testBit_eq
      intro i
      rw [Nat.testBit_and, Nat.testBit_and]
      cases hb : D.mask.testBit i
      · simp
      · rw [h i hb]
    rw [read_eq hreg, read_eq hreg, hand]
  · intro h2 h3 h4
    refine ⟨_, pin_group_2_3 D.port, ?_⟩
    have hP : defined
        (PinGroup.with_port { port := pin_group_port D.port, mask := 28, shift := 2 }
          D.port).port = true := hreg
    rw [read_eq hP]
    exact congrArg some (field_2_3_eq_five h2 h3 h4)

/-- Witness of `read_effect`: with `PINB = 0xF7`, `read` on
`pin_definition< port_B, 3>` returns 0 and `read` on `pin_group< port_B, 2, 3>`
does not build. -/
theorem read_effect_witness :
    (pin_definition PortPlaceholder.port_B 3).is_uint8
    ∧ read (fun _ => true) (pin_definition PortPlaceholder.port_B 3) (fun _ => 247) = some 0
    ∧ on_pin_group PortPlaceholder.port_B 2 3 (fun E => read (fun _ => true) E (fun _ => 247))
        = none :=
  have h := read_effect (fun _ => true) (pin_definition PortPlaceholder.port_B 3)
    (fun _ => 247) rfl (by decide)
  ⟨by decide, h.1, h.2.2.1⟩

/-- C5. For a descriptor of a registered port, `declare_output(D)` leaves the
direction register equal to `old OR mask`: the bits of `mask` are 1 and the
others are unchanged; on `pin_definition< P, b>` with `b` in 0..7 direction bit
`b` is 1 afterwards and no other direction bit changes. -/
theorem declare_output_effect (defined : PortPlaceholder → Bool) (D : Pins) (m : Memory)
    (hreg : defined D.port = true) (hD : D.is_uint8) (hm : m.is_uint8) :
    (∃ m', declare_output defined D m = some m'
      ∧ m' (Reg.DDR D.port) = m (Reg.DDR D.port) ||| D.mask
      ∧ (∀ i, D.mask.testBit i = true → (m' (Reg.DDR D.port)).testBit i = true)
      ∧ ∀ i, D.mask.testBit i = false →
          (m' (Reg.DDR D.port)).testBit i = (m (Reg.DDR D.port)).testBit i)
    ∧ ∀ b, b ≤ 7 → ∃ m', declare_output defined (pin_definition D.port b) m = some m'
      ∧ (m' (Reg.DDR D.port)).testBit b = true
      ∧ ∀ i, i ≠ b → (m' (Reg.DDR D.port)).testBit i = (m (Reg.DDR D.port)).testBit i := by
  constructor
  · refine ⟨_, declare_output_eq hreg m, ?_, ?_, ?_⟩
    · rw [Function.update_same, or_value (hm _) hD.1]
    · intro i hi
      rw [Function.update_same, or_value (hm _) hD.1, Nat.testBit_or, hi, Bool.or_true]
    · intro i hi
      rw [Function.update_same, or_value (hm _) hD.1, Nat.testBit_or, hi, Bool.or_false]
  · intro b hb
    have hb8 : b < 8 := by omega
    have hlt : (2 : Nat) ^ b < 256 := Nat.pow_lt_pow_right (by decide) hb8
    have hP : defined (pin_definition D.port b).port = true := hreg
    have hport : (pin_definition D.port b).port = D.port := rfl
    refine ⟨_, declare_output_eq hP m, ?_, ?_⟩
    · show (Function.update m (Reg.DDR D.port) _ (Reg.DDR D.port)).testBit b = true
      rw [Function.update_same, pin_definition_mask _ hb8, or_value (hm _) hlt,
        or_two_pow_testBit]
      simp
    · intro i hi
      show (Function.update m (Reg.DDR D.port) _ (Reg.DDR D.port)).testBit i = _
      rw [Function.update_same, pin_definition_mask _ hb8, or_value (hm _) hlt,
        or_two_pow_testBit]
      simp [Ne.symm hi, hport]

/-- Witness of `declare_output_effect`: on port B with all registers 0,
`declare_output` on `pin_definition< port_B, 3>` leaves `DDRB = 8`. -/
theorem declare_output_effect_witness :
    (pin_definition PortPlaceholder.port_B 3).is_uint8
    ∧ Memory.is_uint8 (fun _ => 0)
    ∧ ∃ m', declare_output (fun _ => true) (pin_definition PortPlaceholder.port_B 3)
          (fun _ => 0) = some m'
        ∧ m' (Reg.DDR PortPlaceholder.port_B) = 8 :=
  ⟨by decide, fun _ => (by decide : (0 : Nat) < 256),
    (declare_output_effect (fun _ => true) (pin_definition PortPlaceholder.port_B 3)
      (fun _ => 0) rfl (by decide) (fun _ => (by decide : (0 : Nat) < 256))).1.imp
      (fun _ h => ⟨h.1, h.2.1⟩)⟩

/-! ## Sequences of operations -/

/-- C6, as stated, fails: on port B with all registers 0, `write` of 1 to
`pin_definition< port_B, 0>` followed by `read` of the same descriptor returns
0, because `write` stores into `PORTB` and `read` loads `PINB`. -/
theorem write_read_counterexample :
    (write (fun _ => true) (pin_definition PortPlaceholder.port_B 0) 1 (fun _ => 0)).bind
        (read (fun _ => true) (pin_definition PortPlaceholder.port_B 0)) = some 0
    ∧ (write (fun _ => true) (pin_definition PortPlaceholder.port_B 0) 1 (fun _ => 0)).bind
        (read (fun _ => true) (pin_definition PortPlaceholder.port_B 0)) ≠ some 1 := by
  decide

/-- C6, amended. For a descriptor `D` of a registered port whose mask is a run of
`bits` ones starting at `shift`, with `shift + bits ≤ 8`, and `v < 2^bits`, in
particular for `pin_definition< P, b>` with `b ≤ 7` and `v ≤ 1`: after
`write(D, v)` the field of the output register selected by `D` equals `v`, and
`read(D)` returns `v` provided the input register shows the output register on
the bits of the mask. -/
theorem write_read_roundtrip (defined : PortPlaceholder → Bool) (D : Pins)
    (bits b v : Nat) (m : Memory) (hreg : defined D.port = true) (hm : m.is_uint8) :
    (is_field D.mask D.shift bits → D.shift + bits ≤ 8 → v < 2 ^ bits →
      ∃ m', write defined D v m = some m'
        ∧ field D (m' (Reg.PORT D.port)) = v
        ∧ ((∀ i, D.mask.testBit i = true →
              (m' (Reg.PIN D.port)).testBit i = (m' (Reg.PORT D.port)).testBit i) →
            read defined D m' = some v))
    ∧ (b ≤ 7 → v ≤ 1 →
      ∃ m', write defined (pin_definition D.port b) v m = some m'
        ∧ field (pin_definition D.port b) (m' (Reg.PORT D.port)) = v
        ∧ ((∀ i, (pin_definition D.port b).mask.testBit i = true →
              (m' (Reg.PIN D.port)).testBit i = (m' (Reg.PORT D.port)).testBit i) →
            read defined (pin_definition D.port b) m' = some v)) := by
  constructor
  · intro hf h8 hv
    obtain ⟨m', h1, h2, _, _, h5⟩ := write_field_core hreg hf h8 hm v
    rw [Nat.mod_eq_of_lt hv] at h2 h5
    exact ⟨m', h1, h2, h5⟩
  · intro h7 hv
    have hP : defined (pin_definition D.port b).port = true := hreg
    have h8 : (pin_definition D.port b).shift + 1 ≤ 8 := by
      show b + 1 ≤ 8
      omega
    obtain ⟨m', h1, h2, _, _, h5⟩ :=
      write_field_core hP (pin_definition_is_field D.port (by omega)) h8 hm v
    have hv2 : v % 2 ^ 1 = v := Nat.mod_eq_of_lt (by omega)
    rw [hv2] at h2 h5
    exact ⟨m', h1, h2, h5⟩

/-- Witness of `write_read_roundtrip`: on port B with all registers 0, writing 1
to `pin_definition< port_B, 3>` leaves the field of `PORTB` equal to 1. -/
theorem write_read_roundtrip_witness :
    Memory.is_uint8 (fun _ => 0)
    ∧ ∃ m', write (fun _ => true) (pin_definition PortPlaceholder.port_B 3) 1 (fun _ => 0)
          = some m'
        ∧ field (pin_definition PortPlaceholder.port_B 3)
            (m' (Reg.PORT PortPlaceholder.port_B)) = 1 :=
  ⟨fun _ => (by decide : (0 : Nat) < 256),
    ((write_read_roundtrip (fun _ => true) (pin_definition PortPlaceholder.port_B 3) 1 3 1
      (fun _ => 0) rfl (fun _ => (by decide : (0 : Nat) < 256))).2 (by decide)
      (by decide)).imp (fun _ h => ⟨h.1, h.2.1⟩)⟩

/-- C7, as stated, fails: with `PORTB = 1`, `set` then `reset` on
`pin_definition< port_B, 0>` leaves bit 0 cleared although it was 1 before;
with `PORTB = 0`, `reset` then `set` leaves bit 0 set although it was 0. -/
theorem set_reset_counterexample :
    ((set (fun _ => true) (pin_definition PortPlaceholder.port_B 0) (fun _ => 1)).bind
        (reset (fun _ => true) (pin_definition PortPlaceholder.port_B 0))).map
      (fun m' => (m' (Reg.PORT PortPlaceholder.port_B)).testBit 0) = some false
    ∧ (1 : Nat).testBit 0 = true
    ∧ ((reset (fun _ => true) (pin_definition PortPlaceholder.port_B 0) (fun _ => 0)).bind
        (set (fun _ => true) (pin_definition PortPlaceholder.port_B 0))).map
      (fun m' => (m' (Reg.PORT PortPlaceholder.port_B)).testBit 0) = some true
    ∧ (0 : Nat).testBit 0 = false := by
  decide

/-- C7, amended. On a registered port, `set(D)` then `reset(D)` leaves every bit
of the mask 0 (the state of `reset(D)` alone) and `reset(D)` then `set(D)` leaves
every bit of the mask 1 (the state of `set(D)` alone); in both orders the bits
outside the mask keep their value. So the second call undoes the first on the
targeted bits exactly when they were 0 (resp. 1) before the two calls. -/
theorem set_reset_absorb (defined : PortPlaceholder → Bool) (D : Pins) (m : Memory)
    (hreg : defined D.port = true) (hD : D.is_uint8) (hm : m.is_uint8) :
    (∃ m', (set defined D m).bind (reset defined D) = some m'
      ∧ reset defined D m = some m'
      ∧ (∀ i, D.mask.testBit i = true → (m' (Reg.PORT D.port)).testBit i = false)
      ∧ (∀ i, D.mask.testBit i = false →
          (m' (Reg.PORT D.port)).testBit i = (m (Reg.PORT D.port)).testBit i)
      ∧ (m' (Reg.PORT D.port) = m (Reg.PORT D.port) ↔
          ∀ i, D.mask.testBit i = true → (m (Reg.PORT D.port)).testBit i = false))
    ∧ (∃ m', (reset defined D m).bind (set defined D) = some m'
      ∧ set defined D m = some m'
      ∧ (∀ i, D.mask.testBit i = true → (m' (Reg.PORT D.port)).testBit i = true)
      ∧ (∀ i, D.mask.testBit i = false →
          (m' (Reg.PORT D.port)).testBit i = (m (Reg.PORT D.port)).testBit i)
      ∧ (m' (Reg.PORT D.port) = m (Reg.PORT D.port) ↔
          ∀ i, D.mask.testBit i = true → (m (Reg.PORT D.port)).testBit i = true)) := by
  have hold := hm (Reg.PORT D.port)
  obtain ⟨h1, h2⟩ := set_reset_value hold hD.1
  constructor
  · have hval : (Function.update m (Reg.PORT D.port)
        (to_uint8 (to_uint8 (m (Reg.PORT D.port) ||| D.mask) &&& int_not D.mask)))
        (Reg.PORT D.port) = m (Reg.PORT D.port) &&& (255 - D.mask) := by
      rw [Function.update_same, h1]
    refine ⟨_, set_then_reset_eq hreg m, ?_, ?_, ?_, ?_⟩
    · rw [reset_eq hreg, h1, and_not_value hold hD.1]
    · intro i hi
      rw [hval, Nat.testBit_and, testBit_not8 hD.1, hi]
      simp
    · intro i hi
      rw [hval, Nat.testBit_and, testBit_not8 hD.1, hi]
      by_cases h : i < 8
      · simp [h]
      · simp [h, testBit_eq_false_of_uint8 hold (Nat.le_of_not_lt h)]
    · rw [hval]
      constructor
      · intro heq i hi
        have := congrArg (fun x => x.testBit i) heq
        simp only [Nat.testBit_and, testBit_not8 hD.1, hi] at this
        cases hb : (m (Reg.PORT D.port)).testBit i
        · rfl
        · rw [hb] at this
          simp at this
      · intro hall
        apply Nat.eq_of_testBit_eq
        intro i
        rw [Nat.testBit_and, testBit_not8 hD.1]
        cases hb : D.mask.testBit i
        · by_cases h : i < 8
          · simp [h]
          · simp [h, testBit_eq_false_of_uint8 hold (Nat.le_of_not_lt h)]
        · rw [hall i hb]
          simp
  · have hval : (Function.update m (Reg.PORT D.port)
        (to_uint8 (to_uint8 (m (Reg.PORT D.port) &&& int_not D.mask) ||| D.mask)))
        (Reg.PORT D.port) = m (Reg.PORT D.port) ||| D.mask := by
      rw [Function.update_same, h2]
    refine ⟨_, reset_then_set_eq hreg m, ?_, ?_, ?_, ?_⟩
    · rw [set_eq hreg, h2, or_value hold hD.1]
    · intro i hi
      rw [hval, Nat.testBit_or, hi, Bool.or_true]
    · intro i hi
      rw [hval, Nat.testBit_or, hi, Bool.or_false]
    · rw [hval]
      constructor
      · intro heq i hi
        have := congrArg (fun x => x.testBit i) heq
        simp only [Nat.testBit_or, hi, Bool.or_true] at this
        exact this.symm
      · intro hall
        apply Nat.eq_of_testBit_eq
        intro i
        rw [Nat.testBit_or]
        cases hb : D.mask.testBit i
        · simp
        · rw [hall i hb]
          simp

/-- Witness of `set_reset_absorb`: with all registers `0xFF`, `set` then `reset`
on `pin_definition< port_B, 3>` ends in the state of `reset` alone. -/
theorem set_reset_absorb_witness :
    (pin_definition PortPlaceholder.port_B 3).is_uint8
    ∧ Memory.is_uint8 (fun _ => 255)
    ∧ ∃ m', (set (fun _ => true) (pin_definition PortPlaceholder.port_B 3) (fun _ => 255)).bind
          (reset (fun _ => true) (pin_definition PortPlaceholder.port_B 3)) = some m'
        ∧ reset (fun _ => true) (pin_definition PortPlaceholder.port_B 3) (fun _ => 255)
          = some m' :=
  ⟨by decide, fun _ => (by decide : (255 : Nat) < 256),
    (set_reset_absorb (fun _ => true) (pin_definition PortPlaceholder.port_B 3) (fun _ => 255)
      rfl (by decide) (fun _ => (by decide : (255 : Nat) < 256))).1.imp
      (fun _ h => ⟨h.1, h.2.1⟩)⟩

/-! ## Truncation of the written value -/

/-- C8, as stated, fails: `pin_group< port_B, 2, 3>` has mask `0b00011100` and
shift 2, and on a descriptor of port B with that mask and shift, with all
registers 0, `write` of `0xFF` leaves `PORTB = 0b00011100` while `write` of 5
leaves `PORTB = 0b00010100`. -/
theorem write_ff_counterexample :
    (pin_group PortPlaceholder.port_B 2 3).map (fun G => (G.mask, G.shift)) = some (28, 2)
    ∧ (write (fun _ => true) { port := PortPlaceholder.port_B, mask := 28, shift := 2 } 0xFF
        (fun _ => 0)).map (fun m' => m' (Reg.PORT PortPlaceholder.port_B)) = some 28
    ∧ (write (fun _ => true) { port := PortPlaceholder.port_B, mask := 28, shift := 2 } 5
        (fun _ => 0)).map (fun m' => m' (Reg.PORT PortPlaceholder.port_B)) = some 20 := by
  decide

/-- C8, amended. For a descriptor of a registered port with mask `0b00011100` and
shift 2 (the mask and shift of the group with `first_bit = 2`, `bits = 3`) and
every initial state, `write` of `0xFF` leaves the same state as `write` of 7,
the low three bits of `0xFF`: bits 2-4 become `111` and the other bits keep
their value. -/
theorem write_ff_eq_write_seven (defined : PortPlaceholder → Bool) (D : Pins)
    (m : Memory) (hreg : defined D.port = true) (hm : m.is_uint8)
    (hmask : D.mask = 28) (hshift : D.shift = 2) :
    write defined D 0xFF m = write defined D 7 m
    ∧ ∃ m', write defined D 0xFF m = some m'
      ∧ field D (m' (Reg.PORT D.port)) = 7
      ∧ (m' (Reg.PORT D.port)).testBit 2 = true
      ∧ (m' (Reg.PORT D.port)).testBit 3 = true
      ∧ (m' (Reg.PORT D.port)).testBit 4 = true
      ∧ ∀ i, i < 2 ∨ 5 ≤ i →
          (m' (Reg.PORT D.port)).testBit i = (m (Reg.PORT D.port)).testBit i := by
  have hf : is_field D.mask D.shift 3 := by
    rw [hmask, hshift]
    exact @pin_group_mask_is_field 2 3 (by decide)
  have h8 : D.shift + 3 ≤ 8 := by
    rw [hshift]
    decide
  constructor
  · have h := shifted_truncates hf 0xFF
    rw [show (0xFF : Nat) % 2 ^ 3 = 7 from rfl] at h
    rw [write_eq hreg, write_eq hreg, h]
  · obtain ⟨m', h1, h2, h3, _, _⟩ := write_field_core hreg hf h8 hm 0xFF
    have h7 : field D (m' (Reg.PORT D.port)) = 7 := h2
    have hbit : ∀ j, j < 3 → (m' (Reg.PORT D.port)).testBit (2 + j) = true := by
      intro j hj
      have := congrArg (fun x => x.testBit j) h7
      simp only [field, Nat.testBit_shiftRight, Nat.testBit_and] at this
      rw [hshift] at this
      have h7j : (7 : Nat).testBit j = true := by interval_cases j <;> decide
      rw [h7j] at this
      simp at this
      exact this.1
    refine ⟨m', h1, h7, hbit 0 (by decide), hbit 1 (by decide), hbit 2 (by decide), ?_⟩
    intro i hi
    apply h3
    rw [hf i, hshift]
    have : ¬ (2 ≤ i ∧ i < 2 + 3) := by omega
    simp [this]

/-- Witness of `write_ff_eq_write_seven`: on port B with all registers 0, `write` of
`0xFF` on the descriptor with mask `0b00011100` and shift 2 is `write` of 7. -/
theorem write_ff_eq_write_seven_witness :
    Memory.is_uint8 (fun _ => 0)
    ∧ write (fun _ => true) { port := PortPlaceholder.port_B, mask := 28, shift := 2 } 0xFF
          (fun _ => 0)
        = write (fun _ => true) { port := PortPlaceholder.port_B, mask := 28, shift := 2 } 7
          (fun _ => 0) :=
  ⟨fun _ => (by decide : (0 : Nat) < 256),
    (write_ff_eq_write_seven (fun _ => true)
      { port := PortPlaceholder.port_B, mask := 28, shift := 2 } (fun _ => 0) rfl
      (fun _ => (by decide : (0 : Nat) < 256)) rfl rfl).1⟩

/-- C9. On a registered port, for `pin_definition< P, first_bit>` with
`first_bit ≤ 7` (width 1): `write(D, v)` yields the state of
`write(D, v mod 2)`, afterwards the field of the output register is `v mod 2`,
and every bit outside the mask keeps its value.  `write` on
`pin_group< P, first_bit, bits>` itself does not build, its member `port` being
a `uint8_t`; for `first_bit + bits ≤ 8` the same three facts hold, with
`v mod 2^bits`, on the descriptor with its mask and shift and a
`PortPlaceholder` port. -/
theorem write_truncates (defined : PortPlaceholder → Bool) (P : PortPlaceholder)
    (first_bit bits v : Nat) (m : Memory) (hreg : defined P = true) (hm : m.is_uint8) :
    (first_bit ≤ 7 →
      write defined (pin_definition P first_bit) v m
        = write defined (pin_definition P first_bit) (v % 2 ^ 1) m
      ∧ ∃ m', write defined (pin_definition P first_bit) v m = some m'
        ∧ field (pin_definition P first_bit) (m' (Reg.PORT P)) = v % 2 ^ 1
        ∧ ∀ i, (pin_definition P first_bit).mask.testBit i = false →
            (m' (Reg.PORT P)).testBit i = (m (Reg.PORT P)).testBit i)
    ∧ on_pin_group P first_bit bits (fun E => write defined E v m) = none
    ∧ (first_bit + bits ≤ 8 →
      ∃ G, pin_group P first_bit bits = some G
        ∧ write defined (G.with_port P) v m = write defined (G.with_port P) (v % 2 ^ bits) m
        ∧ ∃ m', write defined (G.with_port P) v m = some m'
          ∧ field (G.with_port P) (m' (Reg.PORT P)) = v % 2 ^ bits
          ∧ ∀ i, (G.with_port P).mask.testBit i = false →
              (m' (Reg.PORT P)).testBit i = (m (Reg.PORT P)).testBit i) := by
  have key : ∀ (D : Pins) (w : Nat), D.port = P → is_field D.mask D.shift w →
      D.shift + w ≤ 8 →
      write defined D v m = write defined D (v % 2 ^ w) m
      ∧ ∃ m', write defined D v m = some m'
        ∧ field D (m' (Reg.PORT P)) = v % 2 ^ w
        ∧ ∀ i, D.mask.testBit i = false →
            (m' (Reg.PORT P)).testBit i = (m (Reg.PORT P)).testBit i := by
    intro D w hport hf h8
    have hP : defined D.port = true := by rw [hport]; exact hreg
    constructor
    · rw [write_eq hP, write_eq hP, shifted_truncates hf v]
    · obtain ⟨m', h1, h2, h3, _, _⟩ := write_field_core hP hf h8 hm v
      rw [hport] at h2 h3
      exact ⟨m', h1, h2, h3⟩
  refine ⟨?_, on_pin_group_none _ _ _ _, ?_⟩
  · intro h7
    exact key (pin_definition P first_bit) 1 rfl (pin_definition_is_field P (by omega))
      (by show first_bit + 1 ≤ 8; omega)
  · intro h8
    obtain ⟨G, hG, hport, hshift, hf⟩ := pin_group_with_port P h8
    exact ⟨G, hG, key (G.with_port P) bits hport hf (by rw [hshift]; exact h8)⟩

/-- Witness of `write_truncates`: on port B with all registers 0, `write` of `0xFF`
to `pin_definition< port_B, 3>` is `write` of `0xFF mod 2`, and `write` on
`pin_group< port_B, 2, 3>` does not build. -/
theorem write_truncates_witness :
    Memory.is_uint8 (fun _ => 0)
    ∧ write (fun _ => true) (pin_definition PortPlaceholder.port_B 3) 0xFF (fun _ => 0)
        = write (fun _ => true) (pin_definition PortPlaceholder.port_B 3) (0xFF % 2 ^ 1)
            (fun _ => 0)
    ∧ on_pin_group PortPlaceholder.port_B 2 3
        (fun E => write (fun _ => true) E 0xFF (fun _ => 0)) = none :=
  have h := write_truncates (fun _ => true) PortPlaceholder.port_B 3 0 0xFF (fun _ => 0) rfl
    (fun _ => (by decide : (0 : Nat) < 256))
  have h2 := write_truncates (fun _ => true) PortPlaceholder.port_B 2 3 0xFF (fun _ => 0) rfl
    (fun _ => (by decide : (0 : Nat) < 256))
  ⟨fun _ => (by decide : (0 : Nat) < 256), (h.1 (by decide)).1, h2.2.1⟩

/-! ## The descriptors -/

/-- C10. For `first_bit + bits ≤ 8`, `pin_group< P, first_bit, bits>` has
`shift = first_bit`, a mask whose ones are exactly the positions
`first_bit .. first_bit+bits-1`, that is `(2^bits - 1) * 2^first_bit` with
`bits` ones; `bits = 0` gives mask 0 and `bits = 8`, `first_bit = 0` gives
mask `0xFF`; its port is `P`, the enumerator whose value the `uint8_t` member
`port` holds. -/
theorem pin_group_constants (P : PortPlaceholder) (first_bit bits : Nat)
    (h : first_bit + bits ≤ 8) :
    ∃ G, pin_group P first_bit bits = some G
      ∧ G.shift = first_bit
      ∧ (∀ i, G.mask.testBit i = true ↔ first_bit ≤ i ∧ i < first_bit + bits)
      ∧ G.mask = (2 ^ bits - 1) * 2 ^ first_bit
      ∧ popcount G.mask = bits
      ∧ (pin_group P first_bit 0).map PinGroup.mask = some 0
      ∧ (pin_group P 0 8).map PinGroup.mask = some 0xFF
      ∧ G.port = pin_group_port P
      ∧ PortPlaceholder.of_value G.port = some P
      ∧ PortPlaceholder.of_value (pin_group_port P) = some P := by
  have hval : PortPlaceholder.of_value (pin_group_port P) = some P := by cases P <;> rfl
  refine ⟨_, pin_group_eq P first_bit (by omega), rfl, ?_, ?_, ?_, ?_, rfl, rfl, hval, hval⟩
  · intro i
    show (to_uint8 ((0xff >>> (8 - bits)) <<< first_bit)).testBit i = true ↔ _
    rw [pin_group_mask_is_field h i]
    simp
  · have h1 : first_bit ≤ 8 := by omega
    have h2 : bits ≤ 8 := by omega
    show to_uint8 ((0xff >>> (8 - bits)) <<< first_bit) = (2 ^ bits - 1) * 2 ^ first_bit
    interval_cases first_bit <;> interval_cases bits <;> first | rfl | omega
  · have h1 : first_bit ≤ 8 := by omega
    have h2 : bits ≤ 8 := by omega
    show popcount (to_uint8 ((0xff >>> (8 - bits)) <<< first_bit)) = bits
    interval_cases first_bit <;> interval_cases bits <;> first | rfl | omega
  · rw [pin_group_eq P first_bit (by decide : 0 ≤ 8)]
    show some (to_uint8 ((0xff >>> (8 - 0)) <<< first_bit)) = some 0
    have h0 : (0xff : Nat) >>> (8 - 0) = 0 := rfl
    rw [h0, Nat.zero_shiftLeft]
    rfl

/-- Witness of `pin_group_constants`: `pin_group< port_B, 2, 3>` builds, with
shift 2 and mask `0b00011100`. -/
theorem pin_group_constants_witness :
    ∃ G, pin_group PortPlaceholder.port_B 2 3 = some G
      ∧ G.shift = 2
      ∧ G.mask = (2 ^ 3 - 1) * 2 ^ 2
      ∧ popcount G.mask = 3 :=
  (pin_group_constants PortPlaceholder.port_B 2 3 (by decide)).imp
    (fun _ h => ⟨h.1, h.2.1, h.2.2.2.1, h.2.2.2.2.1⟩)

/-! ## Calls as bit selections -/

theorem selects_or (x k : Nat) : selects (to_uint8 (x ||| k)) x k 255 := by
  intro i
  rw [testBit_to_uint8, Nat.testBit_or]
  by_cases h : i < 8
  · have h255 : (255 : Nat).testBit i = true := by
      have := Nat.testBit_two_pow_sub_one 8 i
      simpa [h] using this
    cases x.testBit i <;> cases k.testBit i <;> simp [h, h255]
  · simp [h]

theorem selects_and_not (x : Nat) {k : Nat} (hk : k < 256) :
    selects (to_uint8 (x &&& int_not k)) x k 0 := by
  intro i
  rw [testBit_to_uint8, Nat.testBit_and, testBit_int_not hk]
  by_cases h : i < 8
  · have h16 : i < 16 := by omega
    cases x.testBit i <;> cases k.testBit i <;> simp [h, h16]
  · simp [h]

theorem selects_write (x c : Nat) {k : Nat} (hk : k < 256) :
    selects (to_uint8 ((x &&& int_not k) ||| to_uint8 (c &&& k))) x k c := by
  intro i
  rw [testBit_to_uint8, Nat.testBit_or, testBit_to_uint8, Nat.testBit_and, Nat.testBit_and,
    testBit_int_not hk]
  by_cases h : i < 8
  · have h16 : i < 16 := by omega
    cases x.testBit i <;> cases k.testBit i <;> cases c.testBit i <;> simp [h, h16]
  · simp [h]

/-- Two selections on masks without a common bit commute. -/
theorem selects_comm {x y1 y2 z1 z2 k1 c1 k2 c2 : Nat}
    (h1 : selects y1 x k1 c1) (h12 : selects z1 y1 k2 c2)
    (h2 : selects y2 x k2 c2) (h21 : selects z2 y2 k1 c1)
    (hdis : ∀ i, ¬ (k1.testBit i = true ∧ k2.testBit i = true)) : z1 = z2 := by
  apply Nat.eq_of_testBit_eq
  intro i
  rw [h12 i, h21 i, h1 i, h2 i]
  have hd := hdis i
  by_cases h : i < 8
  · cases hk1 : k1.testBit i <;> cases hk2 : k2.testBit i <;>
      cases x.testBit i <;> cases c1.testBit i <;> cases c2.testBit i <;>
      simp_all
  · simp [h]

/-- A selection after a selection on the same mask is the later one alone. -/
theorem selects_absorb {x y z z1 k c1 c2 : Nat}
    (h1 : selects y x k c1) (h2 : selects z y k c2) (h : selects z1 x k c2) : z = z1 := by
  apply Nat.eq_of_testBit_eq
  intro i
  rw [h2 i, h i, h1 i]
  by_cases h8 : i < 8
  · cases k.testBit i <;> cases x.testBit i <;> cases c1.testBit i <;>
      cases c2.testBit i <;> simp [h8]
  · simp [h8]

/-- Two selections that drive the same bits inside the mask are equal. -/
theorem selects_congr {x y z k c1 c2 : Nat}
    (h1 : selects y x k c1) (h2 : selects z x k c2)
    (hc : ∀ i, i < 8 → k.testBit i = true → c1.testBit i = c2.testBit i) : y = z := by
  apply Nat.eq_of_testBit_eq
  intro i
  rw [h1 i, h2 i]
  by_cases h8 : i < 8
  · cases hk : k.testBit i
    · simp
    · rw [hc i h8 hk]
  · simp [h8]

/-- A call on a registered port assigns one value to its target register; with
an 8-bit mask that value is the selection of the driven bits by the mask. -/
theorem Op.run_eq {defined : PortPlaceholder → Bool} (op : Op)
    (h : defined op.pins.port = true) (m : Memory) :
    ∃ y, op.run defined m = some (Function.update m op.target y)
      ∧ (op.pins.mask < 256 → selects y (m op.target) op.pins.mask op.driven) := by
  cases op with
  | op_set D => exact ⟨_, set_eq h m, fun _ => selects_or _ _⟩
  | op_reset D => exact ⟨_, reset_eq h m, fun hk => selects_and_not _ hk⟩
  | op_write D value => exact ⟨_, write_eq h value m, fun hk => selects_write _ _ hk⟩
  | op_declare_output D => exact ⟨_, declare_output_eq h m, fun _ => selects_or _ _⟩

theorem Op.target_port (op : Op) :
    op.target = Reg.PORT op.pins.port ∨ op.target = Reg.DDR op.pins.port := by
  cases op <;> simp [Op.target, Op.pins]

theorem bit_to_mask_of_lt {bit_ : Nat} (h : bit_ < 8) : bit_to_mask bit_ = 2 ^ bit_ := by
  have h255 : bit_ ≠ 255 := by omega
  unfold bit_to_mask
  rw [if_neg h255]
  exact pin_definition_mask PortPlaceholder.port_A h

theorem popcount_two_pow {b : Nat} (h : b < 8) : popcount (2 ^ b) = 1 := by
  interval_cases b <;> rfl

/-! ## The single pin and the bit-to-mask mapping -/

/-- C11. For a bit index `b` in 0..7, `pin_definition< P, b>` has `port = P`,
`bit = b`, `shift = b` and `mask = 2^b`: exactly one bit set, at position `b`. -/
theorem pin_definition_constants (P : PortPlaceholder) (b : Nat) (h : b ≤ 7) :
    (pin_definition P b).port = P
    ∧ pin_definition_bit P b = b
    ∧ (pin_definition P b).shift = b
    ∧ (pin_definition P b).mask = 2 ^ b
    ∧ popcount (pin_definition P b).mask = 1
    ∧ ∀ i, (pin_definition P b).mask.testBit i = true ↔ i = b := by
  have hb : b < 8 := by omega
  refine ⟨rfl, rfl, rfl, pin_definition_mask P hb, ?_, ?_⟩
  · rw [pin_definition_mask P hb]
    exact popcount_two_pow hb
  · intro i
    rw [pin_definition_mask P hb, Nat.testBit_two_pow]
    simp [eq_comm]

/-- Witness of `pin_definition_constants`: `pin_definition< port_B, 3>` has mask 8. -/
theorem pin_definition_constants_witness :
    (pin_definition PortPlaceholder.port_B 3).mask = 2 ^ 3
    ∧ popcount (pin_definition PortPlaceholder.port_B 3).mask = 1 :=
  have h := pin_definition_constants PortPlaceholder.port_B 3 (by decide)
  ⟨h.2.2.2.1, h.2.2.2.2.1⟩

/-- C12. `bit_to_mask` maps every bit index `b` in 0..7 to the single-bit mask
`2^b` (index 0 gives mask 1) and the sentinel 255 to mask 0, which has no bit
set and differs from the mask of every index in 0..7. -/
theorem bit_to_mask_values (b : Nat) (h : b ≤ 7) :
    bit_to_mask b = 2 ^ b
    ∧ popcount (bit_to_mask b) = 1
    ∧ bit_to_mask 0 = 1
    ∧ bit_to_mask 255 = 0
    ∧ (∀ i, (bit_to_mask 255).testBit i = false)
    ∧ bit_to_mask 255 ≠ bit_to_mask b := by
  have hb : b < 8 := by omega
  have h255 : bit_to_mask 255 = 0 := rfl
  refine ⟨bit_to_mask_of_lt hb, ?_, rfl, h255, ?_, ?_⟩
  · rw [bit_to_mask_of_lt hb]
    exact popcount_two_pow hb
  · intro i
    rw [h255]
    exact Nat.zero_testBit i
  · rw [h255, bit_to_mask_of_lt hb]
    have hpos : 0 < 2 ^ b := Nat.pow_pos (by decide)
    omega

/-- Witness of `bit_to_mask_values`: index 3 gives mask 8, index 255 gives mask 0. -/
theorem bit_to_mask_values_witness :
    bit_to_mask 3 = 2 ^ 3 ∧ bit_to_mask 255 = 0 ∧ bit_to_mask 255 ≠ bit_to_mask 3 :=
  have h := bit_to_mask_values 3 (by decide)
  ⟨h.1, h.2.2.2.1, h.2.2.2.2.2⟩

/-! ## The registers a call touches -/

/-- C13. With one cell per register and the three registers of a port distinct,
a call of `set`, `reset` or `write` on a registered port changes at most the
output register of that port, `declare_output` at most its direction register,
and `read` leaves all registers as they are: no input register and no register
of another port is ever assigned. -/
theorem register_separation (defined : PortPlaceholder → Bool) (op : Op) (D : Pins)
    (m : Memory) (hop : defined op.pins.port = true) (hD : defined D.port = true) :
    (∃ m', op.run defined m = some m'
      ∧ (∀ r, r ≠ op.target → m' r = m r)
      ∧ (∀ p, m' (Reg.PIN p) = m (Reg.PIN p))
      ∧ (∀ p, p ≠ op.pins.port →
          m' (Reg.PORT p) = m (Reg.PORT p) ∧ m' (Reg.DDR p) = m (Reg.DDR p)))
    ∧ (∀ E v, (Op.op_set E).target = Reg.PORT E.port
        ∧ (Op.op_reset E).target = Reg.PORT E.port
        ∧ (Op.op_write E v).target = Reg.PORT E.port
        ∧ (Op.op_declare_output E).target = Reg.DDR E.port)
    ∧ (∃ v, read_state defined D m = some (v, m))
    ∧ (∀ p, Reg.PORT p ≠ Reg.PIN p ∧ Reg.PORT p ≠ Reg.DDR p ∧ Reg.PIN p ≠ Reg.DDR p) := by
  refine ⟨?_, fun _ _ => ⟨rfl, rfl, rfl, rfl⟩, ?_, fun p => ⟨by simp, by simp, by simp⟩⟩
  · obtain ⟨y, hy, _⟩ := Op.run_eq op hop m
    refine ⟨_, hy, ?_, ?_, ?_⟩
    · intro r hr
      exact Function.update_noteq hr _ _
    · intro p
      apply Function.update_noteq
      rcases Op.target_port op with ht | ht <;> rw [ht] <;> simp
    · intro p hp
      constructor <;>
      · apply Function.update_noteq
        rcases Op.target_port op with ht | ht <;> rw [ht] <;> simp [hp]
  · refine ⟨to_uint8 ((m (Reg.PIN D.port) &&& D.mask) >>> D.shift), ?_⟩
    unfold read_state
    rw [read_eq hD]
    rfl

/-- Witness of `register_separation`: on port B, `set` on `pin_definition< port_B, 3>`
leaves `PINB` as it was. -/
theorem register_separation_witness :
    ∃ m', Op.run (fun _ => true) (Op.op_set (pin_definition PortPlaceholder.port_B 3))
        (fun _ => 0) = some m'
      ∧ m' (Reg.PIN PortPlaceholder.port_B) = 0 :=
  (register_separation (fun _ => true) (Op.op_set (pin_definition PortPlaceholder.port_B 3))
    (pin_definition PortPlaceholder.port_B 3) (fun _ => 0) rfl rfl).1.imp
    (fun _ h => ⟨h.1, h.2.2.1 PortPlaceholder.port_B⟩)

/-- C14. For every port `P`: when the hardware header defines `PORTP`,
`get_port< P>` yields `PORTP`, `PINP` and `DDRP` for `tag_port`, `tag_pin` and
`tag_ddr`; when it does not, `port_traits< P>` has no accessor and `set`,
`reset`, `write`, `read` and `declare_output` on a descriptor naming `P` do
not build. -/
theorem port_registry (defined : PortPlaceholder → Bool) (P : PortPlaceholder) :
    (defined P = true →
      get_port defined P Tag.tag_port = some (Reg.PORT P)
      ∧ get_port defined P Tag.tag_pin = some (Reg.PIN P)
      ∧ get_port defined P Tag.tag_ddr = some (Reg.DDR P))
    ∧ (defined P = false →
      port_traits defined P = none
      ∧ (∀ tag, get_port defined P tag = none)
      ∧ ∀ (D : Pins) (v : Nat) (m : Memory), D.port = P →
          set defined D m = none
          ∧ reset defined D m = none
          ∧ write defined D v m = none
          ∧ read defined D m = none
          ∧ declare_output defined D m = none) := by
  constructor
  · intro h
    exact get_port_of_defined h
  · intro h
    have ht : port_traits defined P = none := by simp [port_traits, h]
    have hg : ∀ tag, get_port defined P tag = none := by
      intro tag
      simp [get_port, ht]
    refine ⟨ht, hg, ?_⟩
    intro D v m hD
    subst hD
    simp [set, reset, write, read, declare_output, hg]

/-- Witness of `port_registry`: with only `PORTB` defined, `get_port< port_B>`
yields `PORTB` and `set` on a pin of port F does not build. -/
theorem port_registry_witness :
    get_port (fun p => decide (p = PortPlaceholder.port_B)) PortPlaceholder.port_B Tag.tag_port
        = some (Reg.PORT PortPlaceholder.port_B)
    ∧ set (fun p => decide (p = PortPlaceholder.port_B))
        (pin_definition PortPlaceholder.port_F 0) (fun _ => 0) = none :=
  ⟨((port_registry (fun p => decide (p = PortPlaceholder.port_B))
      PortPlaceholder.port_B).1 (by decide)).1,
    ((port_registry (fun p => decide (p = PortPlaceholder.port_B))
      PortPlaceholder.port_F).2 (by decide)).2.2
      (pin_definition PortPlaceholder.port_F 0) 0 (fun _ => 0) rfl |>.1⟩

/-! ## Independent, repeated and equivalent calls -/

theorem Op.target_eq_port {op1 op2 : Op} (h : op1.target = op2.target) :
    op1.pins.port = op2.pins.port := by
  cases op1 <;> cases op2 <;> simp [Op.target] at h <;> exact h

/-- Two calls one after the other on registered ports with 8-bit masks. -/
theorem Op.run_then {defined : PortPlaceholder → Bool} (op1 op2 : Op)
    (h1 : defined op1.pins.port = true) (h2 : defined op2.pins.port = true)
    (hk1 : op1.pins.mask < 256) (hk2 : op2.pins.mask < 256) (m : Memory) :
    ∃ y z, (op1.run defined m).bind (op2.run defined)
        = some (Function.update (Function.update m op1.target y) op2.target z)
      ∧ selects y (m op1.target) op1.pins.mask op1.driven
      ∧ selects z (Function.update m op1.target y op2.target) op2.pins.mask op2.driven := by
  obtain ⟨y, hy, hsy⟩ := Op.run_eq op1 h1 m
  obtain ⟨z, hz, hsz⟩ := Op.run_eq op2 h2 (Function.update m op1.target y)
  exact ⟨y, z, by rw [hy, Option.some_bind, hz], hsy hk1, hsz hk2⟩

/-- C15. Two calls among `set`, `reset`, `write` and `declare_output` on
descriptors of registered ports whose ports differ or whose masks have no
common bit give the same registers in either order, for every initial state. -/
theorem ops_commute (defined : PortPlaceholder → Bool) (op1 op2 : Op) (m : Memory)
    (h1 : defined op1.pins.port = true) (h2 : defined op2.pins.port = true)
    (hD1 : op1.pins.is_uint8) (hD2 : op2.pins.is_uint8)
    (hsep : op1.pins.port ≠ op2.pins.port
      ∨ ∀ i, ¬ (op1.pins.mask.testBit i = true ∧ op2.pins.mask.testBit i = true)) :
    ∃ m', (op1.run defined m).bind (op2.run defined) = some m'
      ∧ (op2.run defined m).bind (op1.run defined) = some m' := by
  obtain ⟨y1, z1, e12, sy1, sz1⟩ := Op.run_then op1 op2 h1 h2 hD1.1 hD2.1 m
  obtain ⟨y2, z2, e21, sy2, sz2⟩ := Op.run_then op2 op1 h2 h1 hD2.1 hD1.1 m
  refine ⟨_, e12, ?_⟩
  rw [e21]
  congr 1
  by_cases ht : op1.target = op2.target
  · have hdis : ∀ i, ¬ (op1.pins.mask.testBit i = true ∧ op2.pins.mask.testBit i = true) := by
      rcases hsep with hp | hd
      · exact absurd (Op.target_eq_port ht) hp
      · exact hd
    rw [← ht, Function.update_same] at sz1
    rw [← ht] at sy2
    rw [← ht, Function.update_same] at sz2
    have hz : z1 = z2 := selects_comm sy1 sz1 sy2 sz2 hdis
    rw [← ht, Function.update_idem, Function.update_idem, hz]
  · have ht' : op2.target ≠ op1.target := fun h => ht h.symm
    rw [Function.update_noteq ht'] at sz1
    rw [Function.update_noteq ht] at sz2
    have hz1 : z1 = y2 := selects_congr sz1 sy2 (fun _ _ _ => rfl)
    have hz2 : z2 = y1 := selects_congr sz2 sy1 (fun _ _ _ => rfl)
    rw [hz1, hz2]
    exact Function.update_comm ht' y2 y1 m

/-- Witness of `ops_commute`: on port B, `set` on pin 0 and `write` of 1 to pin 3
give the same registers in either order. -/
theorem ops_commute_witness :
    ∃ m', ((Op.op_set (pin_definition PortPlaceholder.port_B 0)).run (fun _ => true)
          (fun _ => 0)).bind
        ((Op.op_write (pin_definition PortPlaceholder.port_B 3) 1).run (fun _ => true))
          = some m'
      ∧ ((Op.op_write (pin_definition PortPlaceholder.port_B 3) 1).run (fun _ => true)
          (fun _ => 0)).bind
        ((Op.op_set (pin_definition PortPlaceholder.port_B 0)).run (fun _ => true)) = some m' :=
  ops_commute (fun _ => true) (Op.op_set (pin_definition PortPlaceholder.port_B 0))
    (Op.op_write (pin_definition PortPlaceholder.port_B 3) 1) (fun _ => 0) rfl rfl
    (by decide) (by decide)
    (Or.inr (by
      intro i
      show ¬ ((2 ^ 0 : Nat).testBit i = true ∧ (2 ^ 3 : Nat).testBit i = true)
      rw [Nat.testBit_two_pow, Nat.testBit_two_pow]
      intro h
      have h0 : 0 = i := by simpa using h.1
      have h3 : 3 = i := by simpa using h.2
      omega))

/-- Every position inside the register is a one of `255`. -/
theorem testBit_255 {i : Nat} (h : i < 8) : (255 : Nat).testBit i = true := by
  have := Nat.testBit_two_pow_sub_one 8 i
  simpa [h] using this

/-- A call after a call on the same descriptor and register is the later call. -/
theorem Op.run_absorb {defined : PortPlaceholder → Bool} (op1 op2 : Op)
    (hp : op1.pins = op2.pins) (ht : op1.target = op2.target)
    (h : defined op2.pins.port = true) (hk : op2.pins.mask < 256) (m : Memory) :
    (op1.run defined m).bind (op2.run defined) = op2.run defined m := by
  have h1 : defined op1.pins.port = true := by rw [hp]; exact h
  have hk1 : op1.pins.mask < 256 := by rw [hp]; exact hk
  obtain ⟨y, z, e, sy, sz⟩ := Op.run_then op1 op2 h1 h hk1 hk m
  obtain ⟨z', e', sz'⟩ := Op.run_eq op2 h m
  rw [e, e', ← ht, Function.update_idem]
  rw [← ht, Function.update_same] at sz
  rw [hp] at sy
  have hz' := sz' hk
  rw [← ht] at hz'
  rw [selects_absorb sy sz hz']

/-- Two calls on the same descriptor and register that drive the same bits
inside the mask are the same call. -/
theorem Op.run_congr {defined : PortPlaceholder → Bool} (op1 op2 : Op)
    (hp : op1.pins = op2.pins) (ht : op1.target = op2.target)
    (h : defined op2.pins.port = true) (hk : op2.pins.mask < 256)
    (hc : ∀ i, i < 8 → op2.pins.mask.testBit i = true →
      op1.driven.testBit i = op2.driven.testBit i) (m : Memory) :
    op1.run defined m = op2.run defined m := by
  have h1 : defined op1.pins.port = true := by rw [hp]; exact h
  have hk1 : op1.pins.mask < 256 := by rw [hp]; exact hk
  obtain ⟨y, e, sy⟩ := Op.run_eq op1 h1 m
  obtain ⟨z, e', sz⟩ := Op.run_eq op2 h m
  have hy := sy hk1
  rw [hp, ht] at hy
  rw [e, e', ht, selects_congr hy (sz hk) hc]

/-- C17. On a registered port, `write(D, 0)` gives the state of `reset(D)`; for
`pin_definition< P, first_bit>` with `first_bit ≤ 7` (one bit), `write(D, v)`
with bit 0 of `v` set, such as `v = 0xFF`, gives the state of `set(D)`.
`write` and `set` on `pin_group< P, first_bit, bits>` itself do not build, its
member `port` being a `uint8_t`; for `first_bit + bits ≤ 8`, on the descriptor
with its mask and shift and a `PortPlaceholder` port, `write(D, v)` with the
low `bits` bits of `v` all 1, such as `v = 0xFF`, gives the state of `set(D)`. -/
theorem write_subsumes (defined : PortPlaceholder → Bool) (D : Pins) (P : PortPlaceholder)
    (first_bit bits v : Nat) (m : Memory)
    (hreg : defined D.port = true) (hD : D.is_uint8) (hP : defined P = true) :
    (write defined D 0 m = reset defined D m ∧ ∃ m', reset defined D m = some m')
    ∧ (first_bit ≤ 7 →
        (v.testBit 0 = true →
          write defined (pin_definition P first_bit) v m
            = set defined (pin_definition P first_bit) m)
        ∧ write defined (pin_definition P first_bit) 0xFF m
            = set defined (pin_definition P first_bit) m
        ∧ ∃ m', set defined (pin_definition P first_bit) m = some m')
    ∧ (on_pin_group P first_bit bits (fun E => write defined E v m) = none
        ∧ on_pin_group P first_bit bits (fun E => set defined E m) = none
        ∧ on_pin_group P first_bit bits (fun E => reset defined E m) = none)
    ∧ (first_bit + bits ≤ 8 →
        ∃ G, pin_group P first_bit bits = some G
          ∧ ((∀ j, j < bits → v.testBit j = true) →
              write defined (G.with_port P) v m = set defined (G.with_port P) m)
          ∧ write defined (G.with_port P) 0xFF m = set defined (G.with_port P) m
          ∧ ∃ m', set defined (G.with_port P) m = some m') := by
  have key : ∀ (E : Pins) (w n : Nat), E.port = P → is_field E.mask E.shift n →
      E.shift + n ≤ 8 → (∀ j, j < n → w.testBit j = true) →
      write defined E w m = set defined E m := by
    intro E w n hport hf h8 hw
    have hE : defined E.port = true := by rw [hport]; exact hP
    apply Op.run_congr (Op.op_write E w) (Op.op_set E) rfl rfl hE (is_field_lt hf h8)
    intro i hi hk
    have hk' : E.mask.testBit i = true := hk
    rw [hf i] at hk'
    have hr : E.shift ≤ i ∧ i < E.shift + n := by simpa using hk'
    show (w <<< E.shift).testBit i = (255 : Nat).testBit i
    rw [testBit_255 hi, Nat.testBit_shiftLeft, hw (i - E.shift) (by omega)]
    simp [hr.1]
  have hff : ∀ n, n ≤ 8 → ∀ j, j < n → (0xFF : Nat).testBit j = true :=
    fun n hn j hj => testBit_255 (by omega)
  refine ⟨⟨?_, _, reset_eq hreg m⟩, ?_,
    ⟨on_pin_group_none _ _ _ _, on_pin_group_none _ _ _ _, on_pin_group_none _ _ _ _⟩, ?_⟩
  · apply Op.run_congr (Op.op_write D 0) (Op.op_reset D) rfl rfl hreg hD.1
    intro i _ _
    show (0 <<< D.shift).testBit i = (0 : Nat).testBit i
    rw [Nat.zero_shiftLeft]
  · intro h7
    have hf := pin_definition_is_field P (show first_bit < 8 by omega)
    have h8 : (pin_definition P first_bit).shift + 1 ≤ 8 := by
      show first_bit + 1 ≤ 8
      omega
    refine ⟨fun hv => key _ v 1 rfl hf h8 ?_, key _ 0xFF 1 rfl hf h8 (hff 1 (by decide)),
      _, set_eq (D := pin_definition P first_bit) hP m⟩
    intro j hj
    have : j = 0 := by omega
    rw [this]
    exact hv
  · intro h8
    obtain ⟨G, hG, hport, hshift, hf⟩ := pin_group_with_port P h8
    have h8' : (G.with_port P).shift + bits ≤ 8 := by rw [hshift]; exact h8
    have hGP : defined (G.with_port P).port = true := by rw [hport]; exact hP
    exact ⟨G, hG, fun hv => key _ v bits hport hf h8' hv,
      key _ 0xFF bits hport hf h8' (hff bits (by omega)),
      _, set_eq hGP m⟩

/-- Witness of `write_subsumes`: on port B with all registers 0, `write` of 0 to
`pin_definition< port_B, 3>` is `reset`, `write` of `0xFF` is `set`, and `set` on
`pin_group< port_B, 2, 3>` does not build. -/
theorem write_subsumes_witness :
    write (fun _ => true) (pin_definition PortPlaceholder.port_B 3) 0 (fun _ => 0)
      = reset (fun _ => true) (pin_definition PortPlaceholder.port_B 3) (fun _ => 0)
    ∧ write (fun _ => true) (pin_definition PortPlaceholder.port_B 3) 0xFF (fun _ => 0)
      = set (fun _ => true) (pin_definition PortPlaceholder.port_B 3) (fun _ => 0)
    ∧ on_pin_group PortPlaceholder.port_B 2 3 (fun E => set (fun _ => true) E (fun _ => 0))
      = none :=
  have h := write_subsumes (fun _ => true) (pin_definition PortPlaceholder.port_B 3)
    PortPlaceholder.port_B 3 0 7 (fun _ => 0) rfl (by decide) rfl
  have h2 := write_subsumes (fun _ => true) (pin_definition PortPlaceholder.port_B 3)
    PortPlaceholder.port_B 2 3 7 (fun _ => 0) rfl (by decide) rfl
  ⟨h.1.1, (h.2.1 (by decide)).2.1, h2.2.2.1.2.1⟩

/-- C18. On a registered port, `set`, `reset` and `declare_output` applied twice
give the state of one application; `write(D, u)` then `write(D, v)` gives the
state of `write(D, v)` alone; `set` after `reset` is `set` and `reset` after
`set` is `reset`. -/
theorem repeated_calls (defined : PortPlaceholder → Bool) (D : Pins) (u v : Nat) (m : Memory)
    (hreg : defined D.port = true) (hD : D.is_uint8) :
    (set defined D m).bind (set defined D) = set defined D m
    ∧ (reset defined D m).bind (reset defined D) = reset defined D m
    ∧ (declare_output defined D m).bind (declare_output defined D) = declare_output defined D m
    ∧ (write defined D u m).bind (write defined D v) = write defined D v m
    ∧ (reset defined D m).bind (set defined D) = set defined D m
    ∧ (set defined D m).bind (reset defined D) = reset defined D m
    ∧ (∃ m1 m2 m3 m4, set defined D m = some m1 ∧ reset defined D m = some m2
        ∧ declare_output defined D m = some m3 ∧ write defined D v m = some m4) :=
  ⟨Op.run_absorb (Op.op_set D) (Op.op_set D) rfl rfl hreg hD.1 m,
    Op.run_absorb (Op.op_reset D) (Op.op_reset D) rfl rfl hreg hD.1 m,
    Op.run_absorb (Op.op_declare_output D) (Op.op_declare_output D) rfl rfl hreg hD.1 m,
    Op.run_absorb (Op.op_write D u) (Op.op_write D v) rfl rfl hreg hD.1 m,
    Op.run_absorb (Op.op_reset D) (Op.op_set D) rfl rfl hreg hD.1 m,
    Op.run_absorb (Op.op_set D) (Op.op_reset D) rfl rfl hreg hD.1 m,
    _, _, _, _, set_eq hreg m, reset_eq hreg m, declare_output_eq hreg m, write_eq hreg v m⟩

/-- Witness of `repeated_calls`: on port B with all registers 0, writing 0 and
then 1 to `pin_definition< port_B, 3>` is writing 1. -/
theorem repeated_calls_witness :
    (write (fun _ => true) (pin_definition PortPlaceholder.port_B 3) 0 (fun _ => 0)).bind
        (write (fun _ => true) (pin_definition PortPlaceholder.port_B 3) 1)
      = write (fun _ => true) (pin_definition PortPlaceholder.port_B 3) 1 (fun _ => 0) :=
  (repeated_calls (fun _ => true) (pin_definition PortPlaceholder.port_B 3) 0 1 (fun _ => 0)
    rfl (by decide)).2.2.2.1

/-! ## Out-of-range parameters, one-bit groups and the range of `read` -/

/-- The bits of the mask of `pin_group`, for `bits ≤ 8`. -/
theorem pin_group_mask_testBit (first_bit bits i : Nat) :
    (to_uint8 ((0xff >>> (8 - bits)) <<< first_bit)).testBit i
      = (decide (i < 8) && (decide (first_bit ≤ i)
          && decide (8 - bits + (i - first_bit) < 8))) := by
  have h255 : (0xff : Nat) = 2 ^ 8 - 1 := rfl
  rw [testBit_to_uint8, Nat.testBit_shiftLeft, Nat.testBit_shiftRight, h255,
    Nat.testBit_two_pow_sub_one]

/-- C16. The parameters are not checked and the mask is cut to its low 8 bits:
for `bits ≤ 8`, `first_bit ≤ 7` and `first_bit + bits > 8` the mask of
`pin_group` is `((0xFF >> (8 - bits)) << first_bit) mod 256`, with ones exactly
at `first_bit .. 7` (`8 - first_bit` ones, fewer than `bits`) and none below
`first_bit`; for a bit index `b ≥ 8` below the width of `int` the masks of
`pin_definition< P, b>` and of `bit_to_mask< b>` are 0. -/
theorem out_of_range_masks (P : PortPlaceholder) (first_bit bits b : Nat) :
    (bits ≤ 8 → first_bit ≤ 7 → 8 < first_bit + bits →
      ∃ G, pin_group P first_bit bits = some G
        ∧ G.mask = ((0xFF >>> (8 - bits)) <<< first_bit) % 256
        ∧ (∀ i, G.mask.testBit i = true ↔ first_bit ≤ i ∧ i < 8)
        ∧ popcount G.mask = 8 - first_bit
        ∧ 8 - first_bit < bits
        ∧ ∀ i, i < first_bit → G.mask.testBit i = false)
    ∧ (8 ≤ b → b < INT_BITS →
      (pin_definition P b).mask = 0 ∧ bit_to_mask b = 0) := by
  constructor
  · intro hb hf hgt
    refine ⟨_, pin_group_eq P first_bit hb, rfl, ?_, ?_, by omega, ?_⟩
    · intro i
      show (to_uint8 ((0xff >>> (8 - bits)) <<< first_bit)).testBit i = true ↔ _
      rw [pin_group_mask_testBit]
      by_cases h8 : i < 8
      · by_cases h1 : first_bit ≤ i
        · have h2 : 8 - bits + (i - first_bit) < 8 := by omega
          simp [h8, h1, h2]
        · simp [h1]
      · simp [h8]
    · show popcount (to_uint8 ((0xff >>> (8 - bits)) <<< first_bit)) = 8 - first_bit
      interval_cases first_bit <;> interval_cases bits <;> first | rfl | omega
    · intro i hi
      show (to_uint8 ((0xff >>> (8 - bits)) <<< first_bit)).testBit i = false
      rw [pin_group_mask_testBit]
      have h1 : ¬ first_bit ≤ i := by omega
      simp [h1]
  · intro h8 hint
    have h16 : b < 16 := hint
    constructor
    · show to_uint8 (1 <<< b) = 0
      interval_cases b <;> rfl
    · interval_cases b <;> rfl

/-- Witness of `out_of_range_masks`: `pin_group< port_B, 6, 4>` has mask
`0b11000000` and `pin_definition< port_B, 9>` has mask 0. -/
theorem out_of_range_masks_witness :
    (∃ G, pin_group PortPlaceholder.port_B 6 4 = some G
      ∧ G.mask = ((0xFF >>> (8 - 4)) <<< 6) % 256
      ∧ popcount G.mask = 8 - 6)
    ∧ (pin_definition PortPlaceholder.port_B 9).mask = 0 :=
  have h := out_of_range_masks PortPlaceholder.port_B 6 4 9
  ⟨(h.1 (by decide) (by decide) (by decide)).imp (fun _ h1 => ⟨h1.1, h1.2.1, h1.2.2.2.1⟩),
    (h.2 (by decide) (by decide)).1⟩

/-- C19. For `b` in 0..7, `pin_group< P, b, 1>` builds with the mask and shift of
`pin_definition< P, b>`, and its member `port` holds the value of `P`, but as a
`uint8_t`: as the template argument of `get_port` the port of `pin_definition`
converts and the port of `pin_group` does not.  So `set`, `reset`, `write`,
`read` and `declare_output` return on `pin_definition< P, b>` for a registered
port and none of them builds on `pin_group< P, b, 1>`.  With a
`PortPlaceholder` port the group is the pin. -/
theorem one_bit_group_is_pin (defined : PortPlaceholder → Bool) (P : PortPlaceholder)
    (b v : Nat) (m : Memory) (hb : b ≤ 7) :
    ∃ G, pin_group P b 1 = some G
      ∧ G.mask = (pin_definition P b).mask
      ∧ G.shift = (pin_definition P b).shift
      ∧ G.port = P.value
      ∧ (PortArgument.of_placeholder (pin_definition P b).port).convert = some P
      ∧ (PortArgument.of_uint8 G.port).convert = none
      ∧ G.pins = none
      ∧ on_pin_group P b 1 (fun E => set defined E m) = none
      ∧ on_pin_group P b 1 (fun E => reset defined E m) = none
      ∧ on_pin_group P b 1 (fun E => write defined E v m) = none
      ∧ on_pin_group P b 1 (fun E => read defined E m) = none
      ∧ on_pin_group P b 1 (fun E => declare_output defined E m) = none
      ∧ (defined P = true →
          ∃ m1 m2 m3 r m4, set defined (pin_definition P b) m = some m1
            ∧ reset defined (pin_definition P b) m = some m2
            ∧ write defined (pin_definition P b) v m = some m3
            ∧ read defined (pin_definition P b) m = some r
            ∧ declare_output defined (pin_definition P b) m = some m4)
      ∧ G.with_port P = pin_definition P b := by
  have hmask : to_uint8 ((0xff >>> (8 - 1)) <<< b) = (pin_definition P b).mask := by
    show to_uint8 ((0xff >>> (8 - 1)) <<< b) = to_uint8 (1 <<< b)
    interval_cases b <;> rfl
  have hval : pin_group_port P = P.value := by cases P <;> rfl
  refine ⟨_, pin_group_eq P b (by decide), hmask, rfl, hval, rfl, rfl, rfl,
    on_pin_group_none _ _ _ _, on_pin_group_none _ _ _ _, on_pin_group_none _ _ _ _,
    on_pin_group_none _ _ _ _, on_pin_group_none _ _ _ _, ?_, ?_⟩
  · intro hP
    have h : defined (pin_definition P b).port = true := hP
    exact ⟨_, _, _, _, _, set_eq h m, reset_eq h m, write_eq h v m, read_eq h m,
      declare_output_eq h m⟩
  · show Pins.mk P (to_uint8 ((0xff >>> (8 - 1)) <<< b)) b
      = Pins.mk P (pin_definition P b).mask b
    rw [hmask]

/-- Witness of `one_bit_group_is_pin`: on port B, `set` on `pin_definition< port_B, 3>`
returns and `set` on `pin_group< port_B, 3, 1>`, which has the same mask, does
not build. -/
theorem one_bit_group_is_pin_witness :
    (∃ G, pin_group PortPlaceholder.port_B 3 1 = some G
      ∧ G.mask = (pin_definition PortPlaceholder.port_B 3).mask)
    ∧ on_pin_group PortPlaceholder.port_B 3 1 (fun E => set (fun _ => true) E (fun _ => 0))
        = none
    ∧ ∃ m1, set (fun _ => true) (pin_definition PortPlaceholder.port_B 3) (fun _ => 0)
        = some m1 :=
  have h := one_bit_group_is_pin (fun _ => true) PortPlaceholder.port_B 3 0 (fun _ => 0)
    (by decide)
  ⟨h.imp (fun _ h1 => ⟨h1.1, h1.2.1⟩),
    h.elim (fun _ h1 => h1.2.2.2.2.2.2.2.1),
    h.elim (fun _ h1 =>
      (h1.2.2.2.2.2.2.2.2.2.2.2.2.1 rfl).imp (fun _ h2 => h2.elim (fun _ h3 =>
        h3.elim (fun _ h4 => h4.elim (fun _ h5 => h5.elim (fun _ h6 => h6.1))))))⟩

/-- The field a descriptor selects is below `2^bits`. -/
theorem field_lt {D : Pins} {bits : Nat} (hf : is_field D.mask D.shift bits) (x : Nat) :
    field D x < 2 ^ bits := by
  apply Nat.lt_pow_two_of_testBit
  intro j hj
  unfold field
  rw [Nat.testBit_shiftRight, Nat.testBit_and, hf (D.shift + j)]
  have : ¬ (D.shift ≤ D.shift + j ∧ D.shift + j < D.shift + bits) := by omega
  rw [decide_eq_false this, Bool.and_false]

/-- C20. On a registered port, `read` on `pin_definition< P, first_bit>` with
`first_bit ≤ 7` is 0 or 1 and is bit `first_bit` of the input register of `P`.
`read` on `pin_group< P, first_bit, bits>` itself does not build, its member
`port` being a `uint8_t`; for `first_bit + bits ≤ 8`, on the descriptor with
its mask and shift and a `PortPlaceholder` port, `read` is below `2^bits` (at
most 255 for `bits = 8`, and 0 for `bits = 0`). -/
theorem read_range (defined : PortPlaceholder → Bool) (P : PortPlaceholder)
    (first_bit bits : Nat) (m : Memory) (hreg : defined P = true) :
    (first_bit ≤ 7 →
      ∃ r, read defined (pin_definition P first_bit) m = some r
        ∧ (r = 0 ∨ r = 1)
        ∧ r = ((m (Reg.PIN P)).testBit first_bit).toNat)
    ∧ on_pin_group P first_bit bits (fun E => read defined E m) = none
    ∧ (first_bit + bits ≤ 8 →
      ∃ G r, pin_group P first_bit bits = some G
        ∧ read defined (G.with_port P) m = some r
        ∧ r < 2 ^ bits ∧ (bits = 8 → r ≤ 255) ∧ (bits = 0 → r = 0)) := by
  have key : ∀ (D : Pins) (n : Nat), D.port = P → is_field D.mask D.shift n →
      D.shift + n ≤ 8 →
      read defined D m = some (field D (m (Reg.PIN P))) ∧ field D (m (Reg.PIN P)) < 2 ^ n := by
    intro D n hport hf h8
    have hD : defined D.port = true := by rw [hport]; exact hreg
    refine ⟨?_, field_lt hf _⟩
    rw [read_eq hD, to_uint8_of_lt (shiftRight_and_lt _ (is_field_lt hf h8)), hport]
    rfl
  refine ⟨?_, on_pin_group_none _ _ _ _, ?_⟩
  · intro h7
    have hb : first_bit < 8 := by omega
    obtain ⟨h1, h2⟩ := key (pin_definition P first_bit) 1 rfl (pin_definition_is_field P hb)
      (by show first_bit + 1 ≤ 8; omega)
    have hbit : field (pin_definition P first_bit) (m (Reg.PIN P))
        = ((m (Reg.PIN P)).testBit first_bit).toNat := by
      apply Nat.eq_of_testBit_eq
      intro j
      unfold field
      rw [Nat.testBit_shiftRight, Nat.testBit_and, pin_definition_mask P hb,
        Nat.testBit_two_pow, Nat.testBit_bool_to_nat]
      show ((m (Reg.PIN P)).testBit (first_bit + j) && decide (first_bit = first_bit + j)) = _
      by_cases hj : j = 0
      · subst hj
        simp
      · have : ¬ first_bit = first_bit + j := by omega
        simp [hj, this]
    refine ⟨_, h1, ?_, hbit⟩
    have h2' : field (pin_definition P first_bit) (m (Reg.PIN P)) < 2 := h2
    omega
  · intro h8
    obtain ⟨G, hG, hport, hshift, hf⟩ := pin_group_with_port P h8
    obtain ⟨h1, h2⟩ := key (G.with_port P) bits hport hf (by rw [hshift]; exact h8)
    refine ⟨G, _, hG, h1, h2, ?_, ?_⟩
    · intro hb
      have h3 : field (G.with_port P) (m (Reg.PIN P)) < 2 ^ 8 := hb ▸ h2
      exact Nat.le_of_lt_succ h3
    · intro hb
      have h3 : field (G.with_port P) (m (Reg.PIN P)) < 2 ^ 0 := hb ▸ h2
      exact Nat.lt_one_iff.mp h3

/-- Witness of `read_range`: with `PINB = 0xF7`, `read` on `pin_definition< port_B, 3>`
gives 0 or 1 and `read` on `pin_group< port_B, 2, 3>` does not build. -/
theorem read_range_witness :
    (∃ r, read (fun _ => true) (pin_definition PortPlaceholder.port_B 3) (fun _ => 247) = some r
      ∧ (r = 0 ∨ r = 1))
    ∧ on_pin_group PortPlaceholder.port_B 2 3 (fun E => read (fun _ => true) E (fun _ => 247))
        = none :=
  have h := read_range (fun _ => true) PortPlaceholder.port_B 3 0 (fun _ => 247) rfl
  have h2 := read_range (fun _ => true) PortPlaceholder.port_B 2 3 (fun _ => 247) rfl
  ⟨(h.1 (by decide)).imp (fun _ h1 => ⟨h1.1, h1.2.1⟩), h2.2.1⟩

end pin_definitions
